import Mathlib

/-!
Verification of the response-formatting layer and selected tool boundaries of a
Yahoo-Finance MCP server (src/src/yfinance_mcp.py).

The Python module builds, per tool call, a "Response Document" (a Python dict
whose values are strings, numbers, booleans, None, nested dicts, lists, or
library objects such as dates) and serializes it with format_response, either
as JSON (json.dumps(data, indent=2, default=str)) or as a pseudo-Markdown text
(_format_as_markdown), then truncates to CHARACTER_LIMIT = 25000 characters.

The shallow embedding below models:
  - the Response Document data model (JValue / JMembers / JElems);
  - Python str() / repr() as used by the renderer's f-strings (pyStr, pyRepr;
    repr of strings is modelled with single quotes and the escapes for
    backslash, quote, newline, carriage return and tab; repr fidelity for
    exotic non-printable characters is irrelevant to every theorem below,
    which treat pyStr of nested values opaquely);
  - str.replace('_',' ') and str.title() for ASCII (title-cases each maximal
    run of letters, as CPython does);
  - json.dumps with indent=2, ensure_ascii=True and default=str, character by
    character, including the \uXXXX and surrogate-pair escapes;
  - a JSON parser (parseJson) used to state the round-trip property;
  - the tool boundaries of yfinance_get_stock_info,
    yfinance_get_stock_financials and yfinance_get_earnings_dates, with the
    external yfinance calls abstracted as an Except-valued fetch argument
    (the data the library returns, or the message of the exception it raises).

Numbers are modelled by their decimal text (constructor jnum): Python renders
an int or float into JSON and into f-strings through the same decimal text, so
carrying that text is what both serializers consume.  Library objects that are
neither primitives nor containers (for instance dates) are modelled by the
constructor other carrying their str() text, which is exactly what
default=str hands to the JSON encoder.
-/

mutual

/-- Values of a Response Document, mirroring the Python dicts built by the
tools: strings, numbers (carried as their decimal text), booleans, None,
non-primitive library objects (carried as their str() text), nested dicts and
lists. -/
inductive JValue where
  | str (s : String)
  | jnum (lit : String)
  | boolean (b : Bool)
  | null
  | other (s : String)
  | obj (items : JMembers)
  | arr (elems : JElems)

inductive JMembers where
  | nil
  | cons (key : String) (value : JValue) (rest : JMembers)

inductive JElems where
  | nil
  | cons (head : JValue) (tail : JElems)

end

/-- Characters of a string literal, the view both serializers work on. -/
def toL (s : String) : List Char :=
  s.data

/-- Concatenation of the pieces produced for each element of a list. -/
def flatMapL (f : α → List β) : List α → List β
  | [] => []
  | a :: l => f a ++ flatMapL f l

/-- Python "\n".join: interleave a newline between the pieces. -/
def joinNl : List (List Char) → List Char
  | [] => []
  | [l] => l
  | l :: ls => l ++ '\n' :: joinNl ls

/-- Split a character list at every newline; a list with no newline yields
itself as the single piece, so this is the physical-lines view of a string. -/
def splitNl : List Char → List (List Char)
  | [] => [[]]
  | c :: cs =>
    if c = '\n' then [] :: splitNl cs
    else
      match splitNl cs with
      | [] => [[c]]
      | l :: ls => (c :: l) :: ls

/-- Python dict membership test, data.__contains__(key). -/
def memberLookup : JMembers → String → Option JValue
  | .nil, _ => none
  | .cons k v rest, key => if k = key then some v else memberLookup rest key

/-- Python dict indexing with a default, data.get(key, default). -/
def memberLookupD (m : JMembers) (key : String) (dflt : JValue) : JValue :=
  match memberLookup m key with
  | some v => v
  | none => dflt

/-- Keys of a document in insertion order. -/
def keysOf : JMembers → List String
  | .nil => []
  | .cons k _ rest => k :: keysOf rest

/-- Python dict assignment d[k] = v: overwrite in place when the key exists,
append at the end otherwise. -/
def dictInsert : JMembers → String → JValue → JMembers
  | .nil, key, v => .cons key v .nil
  | .cons k w rest, key, v =>
    if k = key then .cons k v rest else .cons k w (dictInsert rest key v)

/-- Concatenation of two documents, used to reason about decompositions. -/
def appendM : JMembers → JMembers → JMembers
  | .nil, b => b
  | .cons k v rest, b => .cons k v (appendM rest b)

/-- Number of entries of a document, len(data). -/
def lenM : JMembers → Nat
  | .nil => 0
  | .cons _ _ rest => 1 + lenM rest

/-- Length of a list of elements, len(seq). -/
def lenE : JElems → Nat
  | .nil => 0
  | .cons _ tail => 1 + lenE tail

/-- Escapes Python repr uses inside a single-quoted string literal. -/
def reprEscChar (c : Char) : List Char :=
  if c = '\\' then ['\\', '\\']
  else if c = '\'' then ['\\', '\'']
  else if c = '\n' then ['\\', 'n']
  else if c = '\r' then ['\\', 'r']
  else if c = '\t' then ['\\', 't']
  else [c]

mutual

/-- Python str(value) as interpolated by the renderer's f-strings: strings
stay themselves, True/False/None use their Python spellings, numbers and
library objects contribute their carried text, and containers fall back to
their repr, as CPython's str does. -/
def pyStr : JValue → List Char
  | .str s => toL s
  | .jnum lit => toL lit
  | .boolean true => toL "True"
  | .boolean false => toL "False"
  | .null => toL "None"
  | .other s => toL s
  | .obj items => '{' :: pyReprMembers items ++ ['}']
  | .arr elems => '[' :: pyReprElems elems ++ [']']

/-- Python repr(value), which str() of a container applies to the parts. -/
def pyRepr : JValue → List Char
  | .str s => '\'' :: flatMapL reprEscChar (toL s) ++ ['\'']
  | .jnum lit => toL lit
  | .boolean true => toL "True"
  | .boolean false => toL "False"
  | .null => toL "None"
  | .other s => toL s
  | .obj items => '{' :: pyReprMembers items ++ ['}']
  | .arr elems => '[' :: pyReprElems elems ++ [']']

/-- Body of repr of a dict: repr(key): repr(value), comma separated. -/
def pyReprMembers : JMembers → List Char
  | .nil => []
  | .cons k v .nil => pyRepr (.str k) ++ ':' :: ' ' :: pyRepr v
  | .cons k v (.cons k' v' rest) =>
    pyRepr (.str k) ++ ':' :: ' ' :: pyRepr v ++
      ',' :: ' ' :: pyReprMembers (.cons k' v' rest)

/-- Body of repr of a list: repr of each element, comma separated. -/
def pyReprElems : JElems → List Char
  | .nil => []
  | .cons v .nil => pyRepr v
  | .cons v (.cons v' rest) => pyRepr v ++ ',' :: ' ' :: pyReprElems (.cons v' rest)

end

/-- Python str.replace('_', ' ') on one character. -/
def underscoreToSpace (c : Char) : Char :=
  if c = '_' then ' ' else c

/-- Kernel of CPython str.title() for ASCII: a character opens a word when the
previous character is not a letter; word-opening letters are uppercased and
the following letters lowercased, while non-letters pass through and reset
the word. -/
def pyTitleAux : Bool → List Char → List Char
  | _, [] => []
  | prevAlpha, c :: cs =>
    (if c.isAlpha then (if prevAlpha then c.toLower else c.toUpper) else c)
      :: pyTitleAux c.isAlpha cs

/-- Python str.title() for ASCII strings. -/
def pyTitle (l : List Char) : List Char :=
  pyTitleAux false l

/-- Display label of a key in markdown mode, the source expression
key.replace('_', ' ').title() that _format_as_markdown repeats for the
scalar, dict and list branches. -/
def labelOf (k : String) : List Char :=
  pyTitle ((toL k).map underscoreToSpace)

/-- Header line emitted for a dict or list value, "**Label:**". -/
def headerLine (k : String) : List Char :=
  toL "**" ++ labelOf k ++ toL ":**"

/-- Lines contributed for the sub-entries of a nested dict value, one line
per sub-key:  "  - subkey: subvalue" with the sub-key not relabeled. -/
def subItemLines : JMembers → List (List Char)
  | .nil => []
  | .cons sk sv rest =>
    (toL "  - " ++ toL sk ++ ':' :: ' ' :: pyStr sv) :: subItemLines rest

/-- Lines contributed for the elements of a list value: a "\n  ---"
separator then the sub-entry lines when the element is a dict, one
"  - value" line otherwise. -/
def arrItemLines : JElems → List (List Char)
  | .nil => []
  | .cons (.obj m) rest => toL "\n  ---" :: (subItemLines m ++ arrItemLines rest)
  | .cons v rest => (toL "  - " ++ pyStr v) :: arrItemLines rest

/-- Entries appended to the local lines list of _format_as_markdown for one
key/value pair: dict and list values get a "\n**Label:**" header entry
followed by their sub-entries, any other value a single "**Label:** value"
entry. -/
def mdEntryItems (k : String) : JValue → List (List Char)
  | .obj m => ('\n' :: headerLine k) :: subItemLines m
  | .arr e => ('\n' :: headerLine k) :: arrItemLines e
  | v => [toL "**" ++ labelOf k ++ toL ":** " ++ pyStr v]

/-- All entries of the lines list, iterating the document in insertion
order. -/
def mdItemsOf : JMembers → List (List Char)
  | .nil => []
  | .cons k v rest => mdEntryItems k v ++ mdItemsOf rest

/-- Embedding of _format_as_markdown (yfinance_mcp.py lines 47 to 70): a
document carrying an "error" key renders as the single error line and
nothing else; otherwise the per-key entries are joined with newlines. -/
def format_as_markdown (data : JMembers) : List Char :=
  match memberLookup data "error" with
  | some v => toL "❌ **Error**: " ++ pyStr v
  | none => joinNl (mdItemsOf data)

/-- Constant CHARACTER_LIMIT of the source module. -/
def CHARACTER_LIMIT : Nat := 25000

/-- Fixed warning appended past the budget, the f-string of line 41 with
CHARACTER_LIMIT interpolated. -/
def truncationMsg : List Char :=
  toL "\n\n⚠️ Response truncated at 25000 characters. Use filters or pagination to reduce results."

/-- Lowercase hexadecimal digit, for the \uXXXX escapes of ensure_ascii. -/
def hexDigitChar (n : Nat) : Char :=
  if n < 10 then Char.ofNat (48 + n) else Char.ofNat (87 + n)

/-- Four lowercase hexadecimal digits of a code unit below 0x10000. -/
def hex4 (n : Nat) : List Char :=
  [hexDigitChar (n / 4096 % 16), hexDigitChar (n / 256 % 16),
   hexDigitChar (n / 16 % 16), hexDigitChar (n % 16)]

/-- Encoding of one character by json.dumps with ensure_ascii=True: the named
short escapes, printable ASCII verbatim, \uXXXX for everything else, with a
surrogate pair for characters beyond the basic plane. -/
def escChar (c : Char) : List Char :=
  if c = '"' then ['\\', '"']
  else if c = '\\' then ['\\', '\\']
  else if c = '\n' then ['\\', 'n']
  else if c = '\t' then ['\\', 't']
  else if c = '\r' then ['\\', 'r']
  else if c.toNat = 8 then ['\\', 'b']
  else if c.toNat = 12 then ['\\', 'f']
  else if 32 ≤ c.toNat ∧ c.toNat ≤ 126 then [c]
  else if c.toNat < 65536 then '\\' :: 'u' :: hex4 c.toNat
  else
    '\\' :: 'u' :: hex4 (55296 + (c.toNat - 65536) / 1024) ++
      '\\' :: 'u' :: hex4 (56320 + (c.toNat - 65536) % 1024)

/-- JSON string literal for s, double-quoted with every character escaped as
json.dumps does. -/
def escStr (s : String) : List Char :=
  '"' :: flatMapL escChar (toL s) ++ ['"']

/-- Indentation prefix at nesting depth n for indent=2. -/
def indL (n : Nat) : List Char :=
  List.replicate (2 * n) ' '

mutual

/-- One value serialized by json.dumps(data, indent=2, default=str) when the
enclosing container sits at depth n: primitives by their JSON spelling,
library objects through default=str as a JSON string, containers over
multiple indented lines with "{}" or "[]" for the empty ones. -/
def dumpVal : JValue → Nat → List Char
  | .str s, _ => escStr s
  | .jnum lit, _ => toL lit
  | .boolean true, _ => toL "true"
  | .boolean false, _ => toL "false"
  | .null, _ => toL "null"
  | .other s, _ => escStr s
  | .obj items, n => '{' :: innerObj items n
  | .arr elems, n => '[' :: innerArr elems n

/-- Everything an object contributes after its opening brace: its first
key/value line indented one level deeper, the remaining lines each behind
",\n", then the closing brace on its own line at the enclosing depth. -/
def innerObj : JMembers → Nat → List Char
  | .nil, _ => ['}']
  | .cons k v rest, n =>
    '\n' :: indL (n + 1) ++ escStr k ++ ':' :: ' ' :: dumpVal v (n + 1) ++
      dumpEntriesRest rest (n + 1) ++ '\n' :: indL n ++ ['}']

/-- Second and later key/value lines of an object, each behind ",\n". -/
def dumpEntriesRest : JMembers → Nat → List Char
  | .nil, _ => []
  | .cons k v rest, lvl =>
    ',' :: '\n' :: indL lvl ++ escStr k ++ ':' :: ' ' :: dumpVal v lvl ++
      dumpEntriesRest rest lvl

/-- Everything an array contributes after its opening bracket, shaped like
innerObj. -/
def innerArr : JElems → Nat → List Char
  | .nil, _ => [']']
  | .cons v rest, n =>
    '\n' :: indL (n + 1) ++ dumpVal v (n + 1) ++
      dumpElemsRest rest (n + 1) ++ '\n' :: indL n ++ [']']

/-- Second and later element lines of an array, each behind ",\n". -/
def dumpElemsRest : JElems → Nat → List Char
  | .nil, _ => []
  | .cons v rest, lvl =>
    ',' :: '\n' :: indL lvl ++ dumpVal v lvl ++ dumpElemsRest rest lvl

end

/-- Serialization of a whole Response Document, json.dumps(data, indent=2,
default=str) of line 34. -/
def jsonDump (data : JMembers) : List Char :=
  dumpVal (.obj data) 0

/-- Intermediate rendered string of format_response (local variable result of
lines 33 to 36): json.dumps for the exact selector "json", markdown for every
other selector. -/
def renderResult (data : JMembers) (response_format : String) : List Char :=
  if response_format = "json" then jsonDump data else format_as_markdown data

/-- Embedding of format_response (yfinance_mcp.py lines 22 to 44): render in
the selected mode, then truncate to CHARACTER_LIMIT leading characters and
append the fixed warning when the rendered string is longer than the limit. -/
def format_response (data : JMembers) (response_format : String) : String :=
  if (renderResult data response_format).length > CHARACTER_LIMIT then
    String.mk ((renderResult data response_format).take CHARACTER_LIMIT ++ truncationMsg)
  else
    String.mk (renderResult data response_format)

/-- Document built from an association list, for dict literals of the source. -/
def ofListM : List (String × JValue) → JMembers
  | [] => .nil
  | (k, v) :: rest => .cons k v (ofListM rest)

/-- Element list built from a Lean list. -/
def ofListE : List JValue → JElems
  | [] => .nil
  | v :: rest => .cons v (ofListE rest)

/-- Python list of strings as a Response Document value. -/
def strArr (l : List String) : JElems :=
  ofListE (l.map JValue.str)

/-- First lenE elements of an element list, Python slicing seq[:n]. -/
def takeE : Nat → JElems → JElems
  | 0, _ => .nil
  | _, .nil => .nil
  | n + 1, .cons v rest => .cons v (takeE n rest)

/-- Whether a decimal text denotes zero: no nonzero digit occurs.  Only used
through pyTruthy below; no claim depends on its value. -/
def numTextIsZero (l : List Char) : Bool :=
  l.all (fun c => !(c.isDigit && c != '0'))

/-- Python truthiness of a Response Document value: empty strings, zero
numbers, False, None and empty containers are falsy. -/
def pyTruthy : JValue → Bool
  | .str s => !(toL s).isEmpty
  | .jnum lit => !numTextIsZero (toL lit)
  | .boolean b => b
  | .null => false
  | .other _ => true
  | .obj .nil => false
  | .obj _ => true
  | .arr .nil => false
  | .arr _ => true

/-- Python slicing value[:500] as applied on line 138; sliceable values are
cut to their first 500 items, any other value is returned unchanged (the
source only ever slices the summary string the library hands it). -/
def pyTake500 : JValue → JValue
  | .str s => .str (String.mk ((toL s).take 500))
  | .arr e => .arr (takeE 500 e)
  | v => v

/-- Value of the description field of yfinance_get_stock_info, line 138:
the first 500 characters of longBusinessSummary when that entry is truthy,
the string N/A otherwise. -/
def descriptionField (info : JMembers) : JValue :=
  match memberLookup info "longBusinessSummary" with
  | some v =>
    if pyTruthy v then pyTake500 (memberLookupD info "longBusinessSummary" (.str "N/A"))
    else .str "N/A"
  | none => .str "N/A"

/-- Unfiltered result document of yfinance_get_stock_info, lines 124 to 139:
fourteen fixed keys filled from the info mapping the library returned. -/
def stockInfoResult (ticker : String) (info : JMembers) : JMembers :=
  ofListM
    [("ticker", .str ticker),
     ("name", memberLookupD info "longName" (.str "N/A")),
     ("current_price",
       memberLookupD info "currentPrice" (memberLookupD info "regularMarketPrice" (.str "N/A"))),
     ("currency", memberLookupD info "currency" (.str "N/A")),
     ("market_cap", memberLookupD info "marketCap" (.str "N/A")),
     ("pe_ratio", memberLookupD info "trailingPE" (.str "N/A")),
     ("forward_pe", memberLookupD info "forwardPE" (.str "N/A")),
     ("dividend_yield", memberLookupD info "dividendYield" (.str "N/A")),
     ("52_week_high", memberLookupD info "fiftyTwoWeekHigh" (.str "N/A")),
     ("52_week_low", memberLookupD info "fiftyTwoWeekLow" (.str "N/A")),
     ("avg_volume", memberLookupD info "averageVolume" (.str "N/A")),
     ("sector", memberLookupD info "sector" (.str "N/A")),
     ("industry", memberLookupD info "industry" (.str "N/A")),
     ("description", descriptionField info)]

/-- The fourteen keys of the unfiltered stock-info result, in insertion
order; these are the available_fields of the filtering loop. -/
def stockInfoFieldNames : List String :=
  ["ticker", "name", "current_price", "currency", "market_cap", "pe_ratio", "forward_pe",
   "dividend_yield", "52_week_high", "52_week_low", "avg_volume", "sector", "industry",
   "description"]

/-- Lowercasing of a character list, Python str.lower() for ASCII. -/
def lowerL (l : List Char) : List Char :=
  l.map Char.toLower

/-- Substring test, the Python expression p in s on strings. -/
def isSubL : List Char → List Char → Bool
  | p, [] => p.isEmpty
  | p, c :: rest => p.isPrefixOf (c :: rest) || isSubL p rest

/-- Case-insensitive partial matching of a requested field name against an
available field name: field.lower() in available_field.lower(). -/
def fieldMatches (field availableField : String) : Bool :=
  isSubL (lowerL (toL field)) (lowerL (toL availableField))

/-- One iteration of the filtering loop of lines 146 to 152: the first
available field the requested name matches is copied into the accumulator,
a name matching nothing contributes nothing. -/
def stockInfoFilterStep (result : JMembers) (availableFields : List String)
    (acc : JMembers) (field : String) : JMembers :=
  match availableFields.find? (fun af => fieldMatches field af) with
  | some af => dictInsert acc af (memberLookupD result af .null)
  | none => acc

/-- Filtered document of lines 142 to 154, seeded with the ticker entry. -/
def stockInfoFiltered (ticker : String) (result : JMembers) (fields : List String) : JMembers :=
  fields.foldl (stockInfoFilterStep result (keysOf result)) (.cons "ticker" (.str ticker) .nil)

/-- Response Document yfinance_get_stock_info formats on its success path:
the full result, or the filtered result when a non-empty fields list was
given. -/
def stockInfoDoc (ticker : String) (fields : Option (List String)) (info : JMembers) : JMembers :=
  let result := stockInfoResult ticker info
  match fields with
  | some fs => if 0 < fs.length then stockInfoFiltered ticker result fs else result
  | none => result

/-- Tool boundary of yfinance_get_stock_info (lines 79 to 158).  The external
calls yf.Ticker(ticker).info are abstracted as fetch: ok carries the info
mapping the library returned, error the message str(e) of the exception the
try/except of lines 111 and 157 converts into an error document.  The fields
parameter models the list form; the JSON-string form of lines 113 to 118 only
normalizes to that list. -/
def yfinance_get_stock_info (ticker : String) (fields : Option (List String))
    (response_format : String) (fetch : Except String JMembers) : String :=
  match fetch with
  | .ok info => format_response (stockInfoDoc ticker fields info) response_format
  | .error e =>
    format_response
      (ofListM [("error", .str ("Failed to fetch stock info for " ++ ticker ++ ": " ++ e
        ++ ". Verify the ticker symbol is correct."))])
      response_format

/-- One cell of a financial-statement frame as the serialization loop of
lines 356 to 359 sees it: an iterable non-string value is skipped, a NaN is
stored as None, any other value is stored as float(value), carried here as
its decimal text. -/
inductive Cell where
  | skipped
  | num (lit : String)
  | nan

/-- Financial-statement frame returned by the library: column labels already
carry their strftime text (most recent first), each index entry carries its
cells aligned with the columns. -/
structure FinFrame where
  cols : List String
  rows : List (String × List Cell)

/-- Pandas DataFrame.empty: no rows or no columns. -/
def finFrameEmpty (f : FinFrame) : Bool :=
  f.rows.isEmpty || f.cols.isEmpty

/-- Column slice financials.iloc[:, :limit] of lines 317 and 318, applied
only for a positive limit. -/
def finSlice (f : FinFrame) (limit : Int) : FinFrame :=
  if 0 < limit then
    { cols := f.cols.take limit.toNat,
      rows := f.rows.map (fun r => (r.1, r.2.take limit.toNat)) }
  else f

/-- Matched line items of lines 324 to 329: for each requested field, the
first available field it matches case-insensitively, in requested order;
names matching nothing contribute nothing. -/
def matchedFieldNames (fields availableFields : List String) : List String :=
  fields.foldl
    (fun acc field =>
      match availableFields.find? (fun af => fieldMatches field af) with
      | some af => acc ++ [af]
      | none => acc)
    []

/-- Row selection financials.loc[matched_fields] of line 332, picking the
first row bearing each matched label, in matched order. -/
def finSelectRows (f : FinFrame) (matched : List String) : FinFrame :=
  { cols := f.cols,
    rows := matched.filterMap (fun name =>
      (f.rows.find? (fun r => r.1 = name)).map (fun r => (name, r.2))) }

/-- Cell of a row under column number i. -/
def cellAt (cells : List Cell) (i : Nat) : Cell :=
  cells.getD i .nan

/-- Entries of one column of the data mapping, lines 356 to 359. -/
def colMembers (rows : List (String × List Cell)) (i : Nat) : JMembers :=
  rows.foldl
    (fun acc r =>
      match cellAt r.2 i with
      | .skipped => acc
      | .num lit => dictInsert acc r.1 (.jnum lit)
      | .nan => dictInsert acc r.1 .null)
    .nil

/-- The data mapping of lines 353 to 359, one entry per column date. -/
def dataMembers (f : FinFrame) : JMembers :=
  f.cols.enum.foldl (fun acc ic => dictInsert acc ic.2 (.obj (colMembers f.rows ic.1))) .nil

/-- Statement selected on lines 301 to 311; none models the defensive else
branch for a selector outside the three accepted spellings. -/
def statementNameOf (statement_type : String) : Option String :=
  if statement_type = "income" then some "Income Statement"
  else if statement_type = "balance" then some "Balance Sheet"
  else if statement_type = "cashflow" then some "Cash Flow Statement"
  else none

/-- Python str.lower() for ASCII strings. -/
def strLower (s : String) : String :=
  String.mk (lowerL (toL s))

/-- Success-path result document of yfinance_get_stock_financials, lines 340
to 351, with fields_requested appended after data when fields were given. -/
def finResultDoc (ticker statementName period : String) (limit : Int)
    (fields : Option (List String)) (f : FinFrame) : JMembers :=
  appendM
    (ofListM
      [("ticker", .str ticker),
       ("statement_type", .str statementName),
       ("period_type", .str period),
       ("periods_count", .jnum (toString f.cols.length)),
       ("fields_count", .jnum (toString f.rows.length)),
       ("limit_applied", .jnum (toString limit)),
       ("data", .obj (dataMembers f))])
    (match fields with
     | some fs => .cons "fields_requested" (.arr (strArr fs)) .nil
     | none => .nil)

/-- Error document of the no-matching-fields branch, lines 334 to 337: an
error entry and the first twenty available field names. -/
def finNoMatchDoc (statementName : String) (availableFields : List String) : JMembers :=
  ofListM
    [("error", .str ("None of the specified fields found in " ++ statementName)),
     ("available_fields", .arr (strArr (availableFields.take 20)))]

/-- Tool boundary of yfinance_get_stock_financials (lines 259 to 363).  The
library accesses of lines 298 to 308 are abstracted as fetch for the selected
statement; an exception anywhere in them is converted by the except of line
362.  The fields parameter models the list form, as for stock info. -/
def yfinance_get_stock_financials (ticker statement_type period : String)
    (limit : Int) (fields : Option (List String)) (response_format : String)
    (fetch : Except String FinFrame) : String :=
  match statementNameOf statement_type with
  | none =>
    format_response
      (ofListM [("error", .str ("Invalid statement_type: " ++ statement_type
        ++ ". Use 'income', 'balance', or 'cashflow'"))])
      response_format
  | some statementName =>
    match fetch with
    | .error e =>
      format_response
        (ofListM [("error", .str ("Failed to fetch financials for " ++ ticker ++ ": " ++ e))])
        response_format
    | .ok frame =>
      if finFrameEmpty frame then
        format_response
          (ofListM [("error", .str ("No " ++ strLower statementName
            ++ " data found for " ++ ticker))])
          response_format
      else
        let sliced := finSlice frame limit
        match fields with
        | some fs =>
          if 0 < fs.length then
            let availableFields := sliced.rows.map Prod.fst
            let matched := matchedFieldNames fs availableFields
            if matched.isEmpty then
              format_response (finNoMatchDoc statementName availableFields) response_format
            else
              format_response
                (finResultDoc ticker statementName period limit fields
                  (finSelectRows sliced matched))
                response_format
          else
            format_response (finResultDoc ticker statementName period limit fields sliced)
              response_format
        | none =>
          format_response (finResultDoc ticker statementName period limit fields sliced)
            response_format

/-- One entry of the earnings-dates frame: a comparable timestamp and the
strftime("%Y-%m-%d") text of the index entry, and the three columns the loop
of lines 750 to 757 reads, each either the decimal text of float(value) or
none for a NaN (row.get already folded its 0 default into the text). -/
structure EarnRow where
  t : Int
  disp : String
  epsEstimate : Option String
  epsReported : Option String
  surprisePct : Option String

/-- A possibly-NaN float cell as stored in the earnings history. -/
def optNum : Option String → JValue
  | some lit => .jnum lit
  | none => .null

/-- One earnings_history element, lines 751 to 756. -/
def earnHistRow (r : EarnRow) : JValue :=
  .obj (ofListM
    [("date", .str r.disp),
     ("eps_estimate", optNum r.epsEstimate),
     ("eps_reported", optNum r.epsReported),
     ("surprise_percent", optNum r.surprisePct)])

/-- The earnings_history list in frame order. -/
def earnHistory : List EarnRow → JElems
  | [] => .nil
  | r :: rest => .cons (earnHistRow r) (earnHistory rest)

/-- Success-path result document of yfinance_get_earnings_dates, lines 737
to 748, with the low-count note appended when future_only asked for more
dates than remain. -/
def earnResultDoc (ticker : String) (limit : Int) (future_only : Bool)
    (rows : List EarnRow) : JMembers :=
  appendM
    (ofListM
      [("ticker", .str ticker),
       ("next_earnings_date", .str (match rows with | [] => "N/A" | r :: _ => r.disp)),
       ("count", .jnum (toString rows.length)),
       ("limit_applied", .jnum (toString limit)),
       ("future_only", .boolean future_only),
       ("earnings_history", .arr (earnHistory rows))])
    (if future_only && ((rows.length : Int) < limit) then
      .cons "note" (.str ("Only " ++ toString rows.length
        ++ " future earnings date(s) available. yfinance typically provides 1-2 quarters of future data.")) .nil
     else .nil)

/-- Error document of the empty-after-filtering branch, lines 725 to 728: an
error entry and an explanatory note entry. -/
def earnEmptyDoc (ticker : String) (future_only : Bool) : JMembers :=
  ofListM
    [("error", .str ("No " ++ (if future_only then "future " else "")
      ++ "earnings dates found for " ++ ticker)),
     ("note", .str "yfinance may have limited future earnings data available")]

/-- Tool boundary of yfinance_get_earnings_dates (lines 677 to 761).  The
library access stock.earnings_dates is abstracted as fetch; the clock read
pd.Timestamp.now() of lines 718 to 720 is the now argument, compared against
the timestamps of the index for the future_only filter of line 721. -/
def yfinance_get_earnings_dates (ticker : String) (limit : Int)
    (future_only : Bool) (response_format : String) (now : Int)
    (fetch : Except String (List EarnRow)) : String :=
  match fetch with
  | .error e =>
    format_response
      (ofListM [("error", .str ("Failed to fetch earnings dates for " ++ ticker ++ ": " ++ e))])
      response_format
  | .ok rows0 =>
    if rows0.isEmpty then
      format_response
        (ofListM [("error", .str ("No earnings dates found for " ++ ticker))])
        response_format
    else
      let rows1 := if future_only then rows0.filter (fun r => now < r.t) else rows0
      if rows1.isEmpty then
        format_response (earnEmptyDoc ticker future_only) response_format
      else
        let rows2 := if 0 < limit then rows1.take limit.toNat else rows1
        format_response (earnResultDoc ticker limit future_only rows2) response_format

/-- Value of one hexadecimal digit, either case. -/
def hexVal (c : Char) : Option Nat :=
  if 48 ≤ c.toNat ∧ c.toNat ≤ 57 then some (c.toNat - 48)
  else if 97 ≤ c.toNat ∧ c.toNat ≤ 102 then some (c.toNat - 87)
  else if 65 ≤ c.toNat ∧ c.toNat ≤ 70 then some (c.toNat - 55)
  else none

/-- Value of a four-digit hexadecimal code unit. -/
def hex4Val (a b c d : Char) : Option Nat :=
  match hexVal a, hexVal b, hexVal c, hexVal d with
  | some x, some y, some z, some w => some (4096 * x + 256 * y + 16 * z + w)
  | _, _, _, _ => none

/-- Decoding of a \\u escape body: four hexadecimal digits, with a second
\\uXXXX immediately following when the first is a high surrogate; yields the
decoded character and the input after the escape, rejecting malformed digits
and unpaired surrogates. -/
def decodeUEsc : List Char → Option (Char × List Char)
  | a :: b :: c :: d :: r =>
    match hex4Val a b c d with
    | none => none
    | some n =>
      if 55296 ≤ n ∧ n < 56320 then
        match r with
        | '\\' :: 'u' :: a2 :: b2 :: c2 :: d2 :: r2 =>
          match hex4Val a2 b2 c2 d2 with
          | some m =>
            if 56320 ≤ m ∧ m < 57344 then
              some (Char.ofNat (65536 + 1024 * (n - 55296) + (m - 56320)), r2)
            else none
          | none => none
        | _ => none
      else if 56320 ≤ n ∧ n < 57344 then none
      else some (Char.ofNat n, r)
  | _ => none

/-- Decoding of one escape after a backslash: the named escapes or \\u. -/
def decodeEsc : List Char → Option (Char × List Char)
  | [] => none
  | c :: r =>
    if c = 'n' then some ('\n', r)
    else if c = 't' then some ('\t', r)
    else if c = 'r' then some ('\r', r)
    else if c = 'b' then some (Char.ofNat 8, r)
    else if c = 'f' then some (Char.ofNat 12, r)
    else if c = '"' then some ('"', r)
    else if c = '\\' then some ('\\', r)
    else if c = '/' then some ('/', r)
    else if c = 'u' then decodeUEsc r
    else none

/-- Body of a JSON string literal after its opening quote, fuelled: the
decoded characters and the input following the closing quote.  Each decoded
character costs one unit of fuel, so any fuel beyond the input length is
enough. -/
def parseStrLF : Nat → List Char → Option (List Char × List Char)
  | 0, _ => none
  | fuel + 1, input =>
    match input with
    | [] => none
    | c :: rest =>
      if c = '"' then some ([], rest)
      else if c = '\\' then
        match decodeEsc rest with
        | none => none
        | some (ch, r) => (parseStrLF fuel r).map (fun p => (ch :: p.1, p.2))
      else (parseStrLF fuel rest).map (fun p => (c :: p.1, p.2))

/-- Body of a JSON string literal after its opening quote, supplying the
fuel the input length warrants. -/
def parseStrL (l : List Char) : Option (List Char × List Char) :=
  parseStrLF (l.length + 1) l

/-- Whether a character is JSON insignificant whitespace. -/
def isWsChar (c : Char) : Bool :=
  c = ' ' || c = '\n' || c = '\t' || c = '\r'

/-- JSON insignificant whitespace skipped between tokens. -/
def skipWs : List Char → List Char
  | [] => []
  | c :: rest => if isWsChar c then skipWs rest else c :: rest

/-- Characters a JSON numeric literal is made of. -/
def isNumChar (c : Char) : Bool :=
  c.isDigit || c = '-' || c = '+' || c = '.' || c = 'e' || c = 'E'

mutual

/-- One JSON value from the front of the input, with the unconsumed suffix.
The fuel bounds the nesting the parser will follow; parseJson below always
supplies more fuel than the input length, which the correctness theorems
show is enough. -/
def parseVal : Nat → List Char → Option (JValue × List Char)
  | 0, _ => none
  | fuel + 1, input =>
    match skipWs input with
    | [] => none
    | c :: rest =>
      if c = '"' then (parseStrL rest).map (fun p => (.str (String.mk p.1), p.2))
      else if c = '{' then (parseMembers fuel rest).map (fun p => (.obj p.1, p.2))
      else if c = '[' then (parseElems fuel rest).map (fun p => (.arr p.1, p.2))
      else if c = 't' then
        match rest with
        | 'r' :: 'u' :: 'e' :: r => some (.boolean true, r)
        | _ => none
      else if c = 'f' then
        match rest with
        | 'a' :: 'l' :: 's' :: 'e' :: r => some (.boolean false, r)
        | _ => none
      else if c = 'n' then
        match rest with
        | 'u' :: 'l' :: 'l' :: r => some (.null, r)
        | _ => none
      else if isNumChar c then
        some (.jnum (String.mk (c :: rest.takeWhile isNumChar)), rest.dropWhile isNumChar)
      else none

/-- Members of an object after its opening brace. -/
def parseMembers : Nat → List Char → Option (JMembers × List Char)
  | 0, _ => none
  | fuel + 1, input =>
    match skipWs input with
    | [] => none
    | c :: rest =>
      if c = '}' then some (.nil, rest)
      else if c = '"' then
        match parseStrL rest with
        | none => none
        | some (key, r1) =>
          match skipWs r1 with
          | ':' :: r2 =>
            match parseVal fuel r2 with
            | none => none
            | some (v, r3) =>
              match skipWs r3 with
              | ',' :: r4 =>
                (parseMembers fuel r4).map (fun p => (.cons (String.mk key) v p.1, p.2))
              | '}' :: r4 => some (.cons (String.mk key) v .nil, r4)
              | _ => none
          | _ => none
      else none

/-- Elements of an array after its opening bracket. -/
def parseElems : Nat → List Char → Option (JElems × List Char)
  | 0, _ => none
  | fuel + 1, input =>
    match skipWs input with
    | [] => none
    | c :: rest =>
      if c = ']' then some (.nil, rest)
      else
        match parseVal fuel (c :: rest) with
        | none => none
        | some (v, r1) =>
          match skipWs r1 with
          | ',' :: r2 => (parseElems fuel r2).map (fun p => (.cons v p.1, p.2))
          | ']' :: r2 => some (.cons v .nil, r2)
          | _ => none

end

/-- Parse a whole JSON document: one value and nothing but whitespace after
it. -/
def parseJson (s : String) : Option JValue :=
  match parseVal (s.data.length + 1) s.data with
  | some (v, rest) => if (skipWs rest).isEmpty then some v else none
  | none => none

mutual

/-- Structural coercion the round trip preserves documents up to: a library
object serializes through default=str as a JSON string, so it parses back as
the string carrying its str() text; every other constructor survives
unchanged. -/
def coerceVal : JValue → JValue
  | .other s => .str s
  | .obj items => .obj (coerceMembers items)
  | .arr elems => .arr (coerceElems elems)
  | v => v

/-- Coercion applied to every value of a document. -/
def coerceMembers : JMembers → JMembers
  | .nil => .nil
  | .cons k v rest => .cons k (coerceVal v) (coerceMembers rest)

/-- Coercion applied to every element of a list. -/
def coerceElems : JElems → JElems
  | .nil => .nil
  | .cons v rest => .cons (coerceVal v) (coerceElems rest)

end

/-- A faithful numeric literal: non-empty and made of numeric characters,
as the decimal text of every Python int or float is. -/
def numLitOk (lit : String) : Bool :=
  !(toL lit).isEmpty && (toL lit).all isNumChar

mutual

/-- Well-formedness of a value for the embedding: every number carries a
faithful decimal text.  Holds of everything the tools build. -/
def wfVal : JValue → Bool
  | .jnum lit => numLitOk lit
  | .obj items => wfMembers items
  | .arr elems => wfElems elems
  | _ => true

/-- Well-formedness of every value of a document. -/
def wfMembers : JMembers → Bool
  | .nil => true
  | .cons _ v rest => wfVal v && wfMembers rest

/-- Well-formedness of every element of a list. -/
def wfElems : JElems → Bool
  | .nil => true
  | .cons v rest => wfVal v && wfElems rest

end

/-- Whether a character list is free of newlines, so that it is one physical
line of the rendered text. -/
def noNl (l : List Char) : Bool :=
  l.all (fun c => c != '\n')

/-- Concrete document whose markdown rendering exceeds the truncation budget,
used to witness the truncation theorem. -/
def bigDoc : JMembers :=
  .cons "k" (.str (String.mk (List.replicate 30000 'a'))) .nil

/-- Whether every sub-entry line of a nested dict renders newline-free. -/
def subNlFree : JMembers → Bool
  | .nil => true
  | .cons sk sv rest => noNl (toL sk) && noNl (pyStr sv) && subNlFree rest

/-- Whether every element of a list value renders newline-free. -/
def elemsNlFree : JElems → Bool
  | .nil => true
  | .cons (.obj m) rest => subNlFree m && elemsNlFree rest
  | .cons v rest => noNl (pyStr v) && elemsNlFree rest

/-- Whether one value renders newline-free in its markdown position. -/
def valNlFreeMd : JValue → Bool
  | .obj m => subNlFree m
  | .arr e => elemsNlFree e
  | v => noNl (pyStr v)

/-- Whether the whole document renders with exactly the physical lines the
spec describes: labels and rendered values carry no embedded newline. -/
def docNlFree : JMembers → Bool
  | .nil => true
  | .cons k v rest => noNl (labelOf k) && valNlFreeMd v && docNlFree rest

/-- Physical lines the spec prescribes for the elements of a list value,
stated from the spec text: a separator line for a dict element followed by
its sub-entry lines, a single indented line for any other element; the
renderer additionally emits a blank line before each separator. -/
def specArrLines : JElems → List (List Char)
  | .nil => []
  | .cons (.obj m) rest => [] :: toL "  ---" :: (subItemLines m ++ specArrLines rest)
  | .cons v rest => (toL "  - " ++ pyStr v) :: specArrLines rest

/-- Physical lines the spec prescribes for one key/value entry, stated from
the spec text: one line for a scalar, a header line followed by the indented
sub-entry lines for a dict or list value; the renderer additionally emits a
blank line before each header. -/
def specEntryLines (k : String) : JValue → List (List Char)
  | .obj m => [] :: headerLine k :: subItemLines m
  | .arr e => [] :: headerLine k :: specArrLines e
  | v => [toL "**" ++ labelOf k ++ toL ":** " ++ pyStr v]

/-- Physical lines the spec prescribes for a whole document, entries in
insertion order. -/
def specLinesOf : JMembers → List (List Char)
  | .nil => []
  | .cons k v rest => specEntryLines k v ++ specLinesOf rest

/-- Whether a character list is all JSON whitespace, the prefixes the
serializer emits before tokens. -/
def wsOnly (l : List Char) : Bool :=
  l.all isWsChar

/-- Admissible first characters of what follows a serialized value inside a
dump: nothing, a comma, or a newline.  None of them can extend a numeric
literal, so the parser stops exactly at the value boundary. -/
def goodRestB : List Char → Bool
  | [] => true
  | c :: _ => c = ',' || c = '\n'

mutual

/-- Parsing effort of a value: enough fuel for parseVal to finish it. -/
def sizeV : JValue → Nat
  | .obj items => 1 + sizeM items
  | .arr elems => 1 + sizeE elems
  | _ => 1

/-- Parsing effort of the members of an object. -/
def sizeM : JMembers → Nat
  | .nil => 1
  | .cons _ v rest => 1 + sizeV v + sizeM rest

/-- Parsing effort of the elements of an array. -/
def sizeE : JElems → Nat
  | .nil => 1
  | .cons v rest => 1 + sizeV v + sizeE rest

end

/-- Round-trip statement for values at a given fuel: a serialized value
embedded between insignificant whitespace and an admissible continuation
parses back to its coercion, consuming exactly its own text. -/
def Pstmt (fuel : Nat) : Prop :=
  ∀ (v : JValue) (n : Nat) (pre rest : List Char), wfVal v = true → wsOnly pre = true →
    goodRestB rest = true → sizeV v ≤ fuel →
    parseVal fuel (pre ++ dumpVal v n ++ rest) = some (coerceVal v, rest)

/-- Round-trip statement for object bodies at a given fuel. -/
def Qstmt (fuel : Nat) : Prop :=
  ∀ (m : JMembers) (n : Nat) (pre rest : List Char), wfMembers m = true →
    wsOnly pre = true → goodRestB rest = true → sizeM m ≤ fuel →
    parseMembers fuel (pre ++ innerObj m n ++ rest) = some (coerceMembers m, rest)

/-- Round-trip statement for array bodies at a given fuel. -/
def Rstmt (fuel : Nat) : Prop :=
  ∀ (e : JElems) (n : Nat) (pre rest : List Char), wfElems e = true →
    wsOnly pre = true → goodRestB rest = true → sizeE e ≤ fuel →
    parseElems fuel (pre ++ innerArr e n ++ rest) = some (coerceElems e, rest)

/-- Concrete document exercising every constructor, escape class and nesting
of the JSON round trip. -/
def roundTripDoc : JMembers :=
  .cons "a" (.str "x\"y\\z\né") (.cons "b" (.obj (.cons "c" (.jnum "2.5") .nil))
    (.cons "d" (.arr (.cons .null (.cons (.boolean true) (.cons (.other "2024-01-01") .nil))))
      (.cons "e" (.jnum "-17") .nil)))

/-- Concrete failure document whose json rendering must keep both keys. -/
def errorJsonDoc : JMembers :=
  .cons "error" (.str "bad ticker") (.cons "other_key" (.jnum "2") .nil)

theorem toL_mk (l : List Char) : toL (String.mk l) = l := rfl

theorem string_length_data (s : String) : s.length = s.data.length := rfl

theorem take_append_exact {α : Type} {A M : List α} {n : Nat} (h : A.length = n) :
    (A ++ M).take n = A := by
  rw [← h, List.take_left]

theorem drop_append_exact {α : Type} {A M : List α} {n : Nat} (h : A.length = n) :
    (A ++ M).drop n = M := by
  rw [← h, List.drop_left]

theorem splitNl_noNl : ∀ l : List Char, noNl l = true → splitNl l = [l]
  | [], _ => rfl
  | c :: cs, h => by
    simp only [noNl, List.all_cons, Bool.and_eq_true, bne_iff_ne, ne_eq] at h
    simp only [splitNl, if_neg h.1, splitNl_noNl cs (by simp [noNl, h.2])]

/-- Claim C1: for every Response Document and every format selector, when the
rendered string R is longer than 25000 characters, format_response returns
exactly the first 25000 characters of R followed by the fixed
truncation-warning suffix; the length check applies to the pre-truncation
rendered string, the warning is not counted against the budget, and a
rendering of at most 25000 characters is returned unchanged. -/
theorem format_response_truncation (d : JMembers) (response_format : String) :
    (CHARACTER_LIMIT < (renderResult d response_format).length →
      format_response d response_format
          = String.mk ((renderResult d response_format).take CHARACTER_LIMIT ++ truncationMsg)
        ∧ (toL (format_response d response_format)).take CHARACTER_LIMIT
            = (renderResult d response_format).take CHARACTER_LIMIT
        ∧ (toL (format_response d response_format)).drop CHARACTER_LIMIT = truncationMsg
        ∧ (format_response d response_format).length = CHARACTER_LIMIT + truncationMsg.length)
    ∧ ((renderResult d response_format).length ≤ CHARACTER_LIMIT →
        format_response d response_format = String.mk (renderResult d response_format)) := by
  constructor
  · intro h
    have heq : format_response d response_format
        = String.mk ((renderResult d response_format).take CHARACTER_LIMIT ++ truncationMsg) := by
      unfold format_response
      rw [if_pos h]
    have hlen : ((renderResult d response_format).take CHARACTER_LIMIT).length
        = CHARACTER_LIMIT := by
      rw [List.length_take]
      omega
    refine ⟨heq, ?_, ?_, ?_⟩
    · rw [heq, toL_mk]
      exact take_append_exact hlen
    · rw [heq, toL_mk]
      exact drop_append_exact hlen
    · rw [heq, string_length_data]
      show ((renderResult d response_format).take CHARACTER_LIMIT ++ truncationMsg).length = _
      rw [List.length_append, hlen]
  · intro h
    unfold format_response
    rw [if_neg (by omega)]

theorem format_response_truncation_witness :
    CHARACTER_LIMIT < (renderResult bigDoc "markdown").length
    ∧ format_response bigDoc "markdown"
        = String.mk ((renderResult bigDoc "markdown").take CHARACTER_LIMIT ++ truncationMsg) := by
  have h1 : renderResult bigDoc "markdown"
      = toL "**" ++ labelOf "k" ++ toL ":** " ++ List.replicate 30000 'a' := by
    show (if ("markdown" : String) = "json" then jsonDump bigDoc else format_as_markdown bigDoc) = _
    rw [if_neg (by decide)]
    rfl
  have h2 : labelOf "k" = ['K'] := by decide
  have e1 : (toL "**").length = 2 := by decide
  have e2 : (toL ":** ").length = 4 := by decide
  have h : CHARACTER_LIMIT < (renderResult bigDoc "markdown").length := by
    rw [h1, h2]
    simp only [List.length_append, List.length_replicate, List.length_singleton, e1, e2]
    decide
  exact ⟨h, ((format_response_truncation bigDoc "markdown").1 h).1⟩

/-- Claim C9: format_response is total over the format selector; every
selector other than the exact string "json" renders markdown, and only
"json" selects the JSON serializer. -/
theorem format_selector_total (d : JMembers) (response_format : String) :
    response_format ≠ "json" →
      renderResult d response_format = format_as_markdown d
      ∧ format_response d response_format = format_response d "markdown"
      ∧ renderResult d "json" = jsonDump d := by
  intro h
  have h1 : renderResult d response_format = format_as_markdown d := by
    unfold renderResult
    rw [if_neg h]
  have h2 : renderResult d "markdown" = format_as_markdown d := by
    unfold renderResult
    rw [if_neg (by decide)]
  refine ⟨h1, ?_, by unfold renderResult; rw [if_pos rfl]⟩
  unfold format_response
  rw [h1, h2]

theorem format_selector_total_witness :
    renderResult .nil "JSON" = format_as_markdown .nil :=
  (format_selector_total .nil "JSON" (by decide)).1

/-- Claim C5: the markdown display label of a key is derived by replacing
underscores with spaces and title-casing: 52_week_high becomes 52 Week High
and market_cap becomes Market Cap; the derivation is deterministic and is
the label the renderer uses for scalar entries. -/
theorem label_derivation :
    labelOf "52_week_high" = toL "52 Week High"
    ∧ labelOf "market_cap" = toL "Market Cap"
    ∧ (∀ (k : String) (s : String),
        mdEntryItems k (.str s) = [toL "**" ++ labelOf k ++ toL ":** " ++ toL s])
    ∧ ∀ k k' : String, k = k' → labelOf k = labelOf k' := by
  refine ⟨by decide, by decide, fun k s => rfl, ?_⟩
  intro k k' h
  rw [h]

theorem label_derivation_witness :
    labelOf "ticker" = labelOf "ticker" :=
  label_derivation.2.2.2 "ticker" "ticker" rfl

/-- Claim C2: a Response Document carrying an "error" key renders in markdown
as the single fixed error line followed by the error value, with no other key
rendered; in particular the bad-ticker example returns exactly the error
line. -/
theorem error_short_circuit (d : JMembers) (v : JValue) :
    memberLookup d "error" = some v →
      format_as_markdown d = toL "❌ **Error**: " ++ pyStr v
      ∧ (noNl (pyStr v) = true →
          splitNl (format_as_markdown d) = [toL "❌ **Error**: " ++ pyStr v])
      ∧ format_response (.cons "error" (.str "bad ticker") .nil) "markdown"
          = "❌ **Error**: bad ticker" := by
  intro h
  have h1 : format_as_markdown d = toL "❌ **Error**: " ++ pyStr v := by
    unfold format_as_markdown
    rw [h]
  refine ⟨h1, ?_, rfl⟩
  intro hnl
  rw [h1]
  apply splitNl_noNl
  simp only [noNl, List.all_append, Bool.and_eq_true]
  exact ⟨by decide, hnl⟩

theorem error_short_circuit_witness :
    format_as_markdown (.cons "error" (.str "boom") .nil)
      = toL "❌ **Error**: " ++ pyStr (.str "boom") :=
  (error_short_circuit (.cons "error" (.str "boom") .nil) (.str "boom") rfl).1

theorem noNl_append {a b : List Char} (ha : noNl a = true) (hb : noNl b = true) :
    noNl (a ++ b) = true := by
  simp only [noNl, List.all_append, Bool.and_eq_true]
  exact ⟨ha, hb⟩

theorem splitNl_ne_nil : ∀ l : List Char, splitNl l ≠ []
  | [] => by simp [splitNl]
  | c :: cs => by
    by_cases h : c = '\n'
    · simp [splitNl, h]
    · simp only [splitNl, if_neg h]
      cases hs : splitNl cs with
      | nil => exact absurd hs (splitNl_ne_nil cs)
      | cons l ls => simp

theorem splitNl_append_newline : ∀ a b : List Char,
    splitNl (a ++ '\n' :: b) = splitNl a ++ splitNl b
  | [], b => by simp [splitNl]
  | c :: cs, b => by
    rw [List.cons_append]
    by_cases h : c = '\n'
    · subst h
      simp only [splitNl, if_pos trivial]
      rw [splitNl_append_newline cs b]
      simp
    · simp only [splitNl, if_neg h]
      rw [splitNl_append_newline cs b]
      cases hs : splitNl cs with
      | nil => exact absurd hs (splitNl_ne_nil cs)
      | cons l ls => simp [hs]

theorem splitNl_joinNl : ∀ ls : List (List Char), ls ≠ [] →
    splitNl (joinNl ls) = flatMapL splitNl ls
  | [], h => absurd rfl h
  | [l], _ => by simp [joinNl, flatMapL]
  | l :: l' :: ls, _ => by
    show splitNl (l ++ '\n' :: joinNl (l' :: ls)) = _
    rw [splitNl_append_newline, splitNl_joinNl (l' :: ls) (by simp)]
    simp [flatMapL]

theorem flatMapL_append (f : α → List β) : ∀ a b : List α,
    flatMapL f (a ++ b) = flatMapL f a ++ flatMapL f b
  | [], b => by simp [flatMapL]
  | x :: a, b => by simp [flatMapL, flatMapL_append f a b]

theorem flat_subItem : ∀ m : JMembers, subNlFree m = true →
    flatMapL splitNl (subItemLines m) = subItemLines m
  | .nil, _ => rfl
  | .cons sk sv rest, h => by
    obtain ⟨⟨hk, hv⟩, hrest⟩ :
        (noNl (toL sk) = true ∧ noNl (pyStr sv) = true) ∧ subNlFree rest = true := by
      simpa [subNlFree, Bool.and_eq_true] using h
    have htail : noNl (':' :: ' ' :: pyStr sv) = true := by
      simp only [noNl, List.all_cons, Bool.and_eq_true]
      refine ⟨by decide, by decide, ?_⟩
      simpa [noNl] using hv
    have hline : noNl (toL "  - " ++ toL sk ++ ':' :: ' ' :: pyStr sv) = true :=
      noNl_append (noNl_append (by decide) hk) htail
    simp only [subItemLines, flatMapL]
    rw [splitNl_noNl _ hline, flat_subItem rest hrest]
    simp

theorem arr_scalar_step (v : JValue) (rest : JElems)
    (hv : noNl (pyStr v) = true)
    (ih : flatMapL splitNl (arrItemLines rest) = specArrLines rest) :
    flatMapL splitNl ((toL "  - " ++ pyStr v) :: arrItemLines rest)
      = (toL "  - " ++ pyStr v) :: specArrLines rest := by
  simp only [flatMapL]
  rw [splitNl_noNl _ (noNl_append (by decide) hv), ih]
  simp

theorem flat_arrItem : ∀ e : JElems, elemsNlFree e = true →
    flatMapL splitNl (arrItemLines e) = specArrLines e
  | .nil, _ => rfl
  | .cons (.obj m) rest, h => by
    obtain ⟨hm, hrest⟩ : subNlFree m = true ∧ elemsNlFree rest = true := by
      simpa [elemsNlFree, Bool.and_eq_true] using h
    show flatMapL splitNl (toL "\n  ---" :: (subItemLines m ++ arrItemLines rest)) = _
    simp only [flatMapL]
    rw [flatMapL_append, flat_subItem m hm, flat_arrItem rest hrest]
    have hsep : splitNl (toL "\n  ---") = [[], toL "  ---"] := by decide
    rw [hsep]
    simp [specArrLines]
  | .cons (.str s) rest, h => by
    obtain ⟨hv, hrest⟩ : noNl (pyStr (.str s)) = true ∧ elemsNlFree rest = true := by
      simpa [elemsNlFree, Bool.and_eq_true] using h
    exact arr_scalar_step (.str s) rest hv (flat_arrItem rest hrest)
  | .cons (.jnum lit) rest, h => by
    obtain ⟨hv, hrest⟩ : noNl (pyStr (.jnum lit)) = true ∧ elemsNlFree rest = true := by
      simpa [elemsNlFree, Bool.and_eq_true] using h
    exact arr_scalar_step (.jnum lit) rest hv (flat_arrItem rest hrest)
  | .cons (.boolean b) rest, h => by
    obtain ⟨hv, hrest⟩ : noNl (pyStr (.boolean b)) = true ∧ elemsNlFree rest = true := by
      simpa [elemsNlFree, Bool.and_eq_true] using h
    exact arr_scalar_step (.boolean b) rest hv (flat_arrItem rest hrest)
  | .cons .null rest, h => by
    obtain ⟨hv, hrest⟩ : noNl (pyStr .null) = true ∧ elemsNlFree rest = true := by
      simpa [elemsNlFree, Bool.and_eq_true] using h
    exact arr_scalar_step .null rest hv (flat_arrItem rest hrest)
  | .cons (.other s) rest, h => by
    obtain ⟨hv, hrest⟩ : noNl (pyStr (.other s)) = true ∧ elemsNlFree rest = true := by
      simpa [elemsNlFree, Bool.and_eq_true] using h
    exact arr_scalar_step (.other s) rest hv (flat_arrItem rest hrest)
  | .cons (.arr e') rest, h => by
    obtain ⟨hv, hrest⟩ : noNl (pyStr (.arr e')) = true ∧ elemsNlFree rest = true := by
      simpa [elemsNlFree, Bool.and_eq_true] using h
    exact arr_scalar_step (.arr e') rest hv (flat_arrItem rest hrest)

theorem scalar_entry_step (k : String) (v : JValue)
    (hk : noNl (labelOf k) = true) (hv : noNl (pyStr v) = true) :
    flatMapL splitNl [toL "**" ++ labelOf k ++ toL ":** " ++ pyStr v]
      = [toL "**" ++ labelOf k ++ toL ":** " ++ pyStr v] := by
  simp only [flatMapL]
  rw [splitNl_noNl _ (noNl_append (noNl_append (noNl_append (by decide) hk) (by decide)) hv)]
  simp

theorem header_split (k : String) (hk : noNl (labelOf k) = true) :
    splitNl ('\n' :: headerLine k) = [[], headerLine k] := by
  have hhdr : noNl (headerLine k) = true :=
    noNl_append (noNl_append (by decide) hk) (by decide)
  show splitNl ('\n' :: headerLine k) = _
  rw [show splitNl ('\n' :: headerLine k) = [] :: splitNl (headerLine k) from by
    simp [splitNl]]
  rw [splitNl_noNl _ hhdr]

theorem flat_entry : ∀ (k : String) (v : JValue), noNl (labelOf k) = true →
    valNlFreeMd v = true → flatMapL splitNl (mdEntryItems k v) = specEntryLines k v
  | k, .obj m, hk, hv => by
    show flatMapL splitNl (('\n' :: headerLine k) :: subItemLines m) = _
    simp only [flatMapL]
    rw [flat_subItem m (by simpa [valNlFreeMd] using hv), header_split k hk]
    rfl
  | k, .arr e, hk, hv => by
    show flatMapL splitNl (('\n' :: headerLine k) :: arrItemLines e) = _
    simp only [flatMapL]
    rw [flat_arrItem e (by simpa [valNlFreeMd] using hv), header_split k hk]
    rfl
  | k, .str s, hk, hv =>
    scalar_entry_step k (.str s) hk (by simpa [valNlFreeMd] using hv)
  | k, .jnum lit, hk, hv =>
    scalar_entry_step k (.jnum lit) hk (by simpa [valNlFreeMd] using hv)
  | k, .boolean b, hk, hv =>
    scalar_entry_step k (.boolean b) hk (by simpa [valNlFreeMd] using hv)
  | k, .null, hk, hv =>
    scalar_entry_step k .null hk (by simpa [valNlFreeMd] using hv)
  | k, .other s, hk, hv =>
    scalar_entry_step k (.other s) hk (by simpa [valNlFreeMd] using hv)

theorem flat_items : ∀ d : JMembers, docNlFree d = true →
    flatMapL splitNl (mdItemsOf d) = specLinesOf d
  | .nil, _ => rfl
  | .cons k v rest, h => by
    obtain ⟨⟨hk, hv⟩, hrest⟩ :
        (noNl (labelOf k) = true ∧ valNlFreeMd v = true) ∧ docNlFree rest = true := by
      simpa [docNlFree, Bool.and_eq_true] using h
    simp only [mdItemsOf, specLinesOf]
    rw [flatMapL_append, flat_entry k v hk hv, flat_items rest hrest]

theorem mdEntryItems_ne_nil (k : String) (v : JValue) : mdEntryItems k v ≠ [] := by
  cases v <;> simp [mdEntryItems]

theorem mdItemsOf_ne_nil : ∀ d : JMembers, d ≠ .nil → mdItemsOf d ≠ []
  | .nil, h => absurd rfl h
  | .cons k v rest, _ => by
    simp only [mdItemsOf]
    intro hcontra
    rcases List.append_eq_nil.mp hcontra with ⟨h1, _⟩
    exact mdEntryItems_ne_nil k v h1

theorem mdLines_eq (d : JMembers) (herr : memberLookup d "error" = none)
    (hne : d ≠ .nil) (hnl : docNlFree d = true) :
    splitNl (format_as_markdown d) = specLinesOf d := by
  have h1 : format_as_markdown d = joinNl (mdItemsOf d) := by
    unfold format_as_markdown
    rw [herr]
  rw [h1, splitNl_joinNl _ (mdItemsOf_ne_nil d hne)]
  exact flat_items d hnl

theorem specLinesOf_append : ∀ a b : JMembers,
    specLinesOf (appendM a b) = specLinesOf a ++ specLinesOf b
  | .nil, b => by simp [appendM, specLinesOf]
  | .cons k v rest, b => by
    simp [appendM, specLinesOf, specLinesOf_append rest b]

theorem lookup_split : ∀ (d : JMembers) (key : String) (v : JValue),
    memberLookup d key = some v → ∃ pre post, d = appendM pre (.cons key v post)
  | .nil, key, v, h => by simp [memberLookup] at h
  | .cons k w rest, key, v, h => by
    by_cases hk : k = key
    · subst hk
      simp [memberLookup] at h
      exact ⟨.nil, rest, by simp [appendM, h]⟩
    · simp only [memberLookup, if_neg hk] at h
      obtain ⟨pre, post, heq⟩ := lookup_split rest key v h
      exact ⟨.cons k w pre, post, by simp [appendM, heq]⟩

theorem appendM_cons_ne_nil : ∀ (pre : JMembers) (k : String) (v : JValue) (post : JMembers),
    appendM pre (.cons k v post) ≠ .nil
  | .nil, _, _, _ => by simp [appendM]
  | .cons _ _ _, _, _, _ => by simp [appendM]

/-- Claim C6: in markdown mode, for a document without an "error" key, keys
are iterated in insertion order; a scalar entry renders as the single line
"**Label:** value", a nested dict entry as its header line followed by one
indented unrelabeled line per sub-key (the renderer emitting a blank
separator line before each header), and lines are joined with newlines; the
ticker/price example contains its two scalar lines. -/
theorem markdown_entry_structure :
    (∀ d : JMembers, memberLookup d "error" = none → d ≠ .nil → docNlFree d = true →
        splitNl (format_as_markdown d) = specLinesOf d)
    ∧ splitNl (toL (format_response
          (.cons "ticker" (.str "AAPL") (.cons "price" (.jnum "175.5") .nil)) "markdown"))
        = [toL "**Ticker:** AAPL", toL "**Price:** 175.5"] :=
  ⟨mdLines_eq, by decide⟩

theorem markdown_entry_structure_witness :
    splitNl (format_as_markdown
        (.cons "ticker" (.str "AAPL") (.cons "price" (.jnum "175.5") .nil)))
      = specLinesOf (.cons "ticker" (.str "AAPL") (.cons "price" (.jnum "175.5") .nil)) :=
  markdown_entry_structure.1 _ rfl (by intro h; exact JMembers.noConfusion h) (by decide)

/-- Claim C7: in markdown mode, a key holding a sequence renders a header
line "**Label:**" and then, per element, either a "  ---" separator (behind
a blank line) followed by one indented line per key of a dict element, or a
single "  - value" line; the items example contains its header and element
lines. -/
theorem sequence_rendering :
    (∀ (d : JMembers) (k : String) (e : JElems),
        memberLookup d "error" = none → docNlFree d = true →
        memberLookup d k = some (.arr e) →
        List.IsInfix (headerLine k :: specArrLines e) (splitNl (format_as_markdown d)))
    ∧ toL "**Items:**" ∈ splitNl (toL (format_response
        (.cons "items" (.arr (.cons (.str "a") (.cons (.str "b") .nil))) .nil) "markdown"))
    ∧ toL "  - a" ∈ splitNl (toL (format_response
        (.cons "items" (.arr (.cons (.str "a") (.cons (.str "b") .nil))) .nil) "markdown"))
    ∧ toL "  - b" ∈ splitNl (toL (format_response
        (.cons "items" (.arr (.cons (.str "a") (.cons (.str "b") .nil))) .nil) "markdown")) := by
  refine ⟨?_, by decide, by decide, by decide⟩
  intro d k e herr hnl hlk
  obtain ⟨pre, post, rfl⟩ := lookup_split d k (.arr e) hlk
  rw [mdLines_eq _ herr (appendM_cons_ne_nil pre k (.arr e) post) hnl, specLinesOf_append]
  refine ⟨specLinesOf pre ++ [[]], specLinesOf post, ?_⟩
  simp [specLinesOf, specEntryLines]

theorem sequence_rendering_witness :
    List.IsInfix
      (headerLine "items" :: specArrLines (.cons (.str "a") (.cons (.str "b") .nil)))
      (splitNl (format_as_markdown
        (.cons "items" (.arr (.cons (.str "a") (.cons (.str "b") .nil))) .nil))) :=
  sequence_rendering.1 _ "items" _ rfl (by decide) rfl

theorem memberLookup_dictInsert_same : ∀ (m : JMembers) (k : String) (v : JValue),
    memberLookup (dictInsert m k v) k = some v
  | .nil, k, v => by simp [dictInsert, memberLookup]
  | .cons k0 w rest, k, v => by
    by_cases h : k0 = k
    · subst h
      simp [dictInsert, memberLookup]
    · simp [dictInsert, memberLookup, h, memberLookup_dictInsert_same rest k v]

theorem memberLookup_dictInsert_ne : ∀ (m : JMembers) (k key : String) (v : JValue),
    k ≠ key → memberLookup (dictInsert m k v) key = memberLookup m key
  | .nil, k, key, v, hne => by simp [dictInsert, memberLookup, hne]
  | .cons k0 w rest, k, key, v, hne => by
    by_cases h : k0 = k
    · subst h
      simp [dictInsert, memberLookup, hne]
    · simp [dictInsert, memberLookup, h, memberLookup_dictInsert_ne rest k key v hne]

theorem keysOf_dictInsert : ∀ (m : JMembers) (k : String) (v : JValue),
    keysOf (dictInsert m k v) = if k ∈ keysOf m then keysOf m else keysOf m ++ [k]
  | .nil, k, v => by simp [dictInsert, keysOf]
  | .cons k0 w rest, k, v => by
    by_cases h : k0 = k
    · subst h
      simp [dictInsert, keysOf]
    · have hne : ¬k = k0 := fun hc => h hc.symm
      simp only [dictInsert, if_neg h, keysOf, keysOf_dictInsert rest k v, List.mem_cons]
      by_cases hm : k ∈ keysOf rest
      · simp [hm, hne]
      · simp [hm, hne]

theorem mem_keys_dictInsert (m : JMembers) (k key : String) (v : JValue) :
    key ∈ keysOf (dictInsert m k v) ↔ key ∈ keysOf m ∨ key = k := by
  rw [keysOf_dictInsert]
  by_cases hm : k ∈ keysOf m
  · rw [if_pos hm]
    constructor
    · exact fun h => Or.inl h
    · rintro (h | rfl)
      · exact h
      · exact hm
  · rw [if_neg hm]
    simp

theorem nodup_keys_dictInsert (m : JMembers) (k : String) (v : JValue)
    (h : (keysOf m).Nodup) : (keysOf (dictInsert m k v)).Nodup := by
  rw [keysOf_dictInsert]
  by_cases hm : k ∈ keysOf m
  · rwa [if_pos hm]
  · rw [if_neg hm]
    simp [List.nodup_append, h, hm]

theorem length_keys_dictInsert (m : JMembers) (k : String) (v : JValue) :
    (keysOf (dictInsert m k v)).length ≤ (keysOf m).length + 1 := by
  rw [keysOf_dictInsert]
  by_cases hm : k ∈ keysOf m
  · rw [if_pos hm]
    omega
  · rw [if_neg hm]
    simp

theorem foldl_lookup_ticker (result : JMembers) (avail : List String) (t : String)
    (hres : memberLookupD result "ticker" .null = .str t) :
    ∀ (fs : List String) (acc : JMembers), memberLookup acc "ticker" = some (.str t) →
      memberLookup (fs.foldl (stockInfoFilterStep result avail) acc) "ticker"
        = some (.str t)
  | [], _, h => h
  | f :: fs, acc, h => by
    rw [List.foldl_cons]
    apply foldl_lookup_ticker result avail t hres fs
    unfold stockInfoFilterStep
    cases hf : avail.find? (fun af => fieldMatches f af) with
    | none => exact h
    | some af =>
      by_cases haf : af = "ticker"
      · subst haf
        rw [memberLookup_dictInsert_same, hres]
      · rw [memberLookup_dictInsert_ne _ _ _ _ haf]
        exact h

theorem foldl_keys_mem (result : JMembers) (avail : List String) :
    ∀ (fs : List String) (acc : JMembers) (key : String),
      key ∈ keysOf (fs.foldl (stockInfoFilterStep result avail) acc)
        ↔ key ∈ keysOf acc
          ∨ ∃ f ∈ fs, avail.find? (fun af => fieldMatches f af) = some key
  | [], acc, key => by simp
  | f :: fs, acc, key => by
    rw [List.foldl_cons, foldl_keys_mem result avail fs _ key]
    have hstep : stockInfoFilterStep result avail acc f
        = match avail.find? (fun af => fieldMatches f af) with
          | some af => dictInsert acc af (memberLookupD result af .null)
          | none => acc := rfl
    cases hf : avail.find? (fun af => fieldMatches f af) with
    | none =>
      rw [hstep, hf]
      simp only [List.exists_mem_cons_iff, hf]
      constructor
      · rintro (h | h)
        · exact Or.inl h
        · exact Or.inr (Or.inr h)
      · rintro (h | h | h)
        · exact Or.inl h
        · exact absurd h (by simp)
        · exact Or.inr h
    | some af =>
      rw [hstep, hf, mem_keys_dictInsert]
      simp only [List.exists_mem_cons_iff, hf, Option.some.injEq]
      constructor
      · rintro ((h | rfl) | h)
        · exact Or.inl h
        · exact Or.inr (Or.inl rfl)
        · exact Or.inr (Or.inr h)
      · rintro (h | rfl | h)
        · exact Or.inl (Or.inl h)
        · exact Or.inl (Or.inr rfl)
        · exact Or.inr h

theorem foldl_keys_nodup (result : JMembers) (avail : List String) :
    ∀ (fs : List String) (acc : JMembers), (keysOf acc).Nodup →
      (keysOf (fs.foldl (stockInfoFilterStep result avail) acc)).Nodup
  | [], _, h => h
  | f :: fs, acc, h => by
    rw [List.foldl_cons]
    apply foldl_keys_nodup result avail fs
    unfold stockInfoFilterStep
    cases avail.find? (fun af => fieldMatches f af) with
    | none => exact h
    | some af => exact nodup_keys_dictInsert acc af _ h

theorem foldl_keys_length (result : JMembers) (avail : List String) :
    ∀ (fs : List String) (acc : JMembers),
      (keysOf (fs.foldl (stockInfoFilterStep result avail) acc)).length
        ≤ (keysOf acc).length + fs.length
  | [], acc => by simp
  | f :: fs, acc => by
    rw [List.foldl_cons]
    have h1 := foldl_keys_length result avail fs (stockInfoFilterStep result avail acc f)
    have h2 : (keysOf (stockInfoFilterStep result avail acc f)).length
        ≤ (keysOf acc).length + 1 := by
      unfold stockInfoFilterStep
      cases avail.find? (fun af => fieldMatches f af) with
      | none =>
        show (keysOf acc).length ≤ (keysOf acc).length + 1
        omega
      | some af =>
        show (keysOf (dictInsert acc af (memberLookupD result af .null))).length ≤ _
        exact length_keys_dictInsert acc af _
    simp only [List.length_cons]
    omega

theorem keysOf_stockInfoResult (t : String) (info : JMembers) :
    keysOf (stockInfoResult t info) = stockInfoFieldNames := rfl

/-- Claim C10: with a non-empty fields list, the stock-info document always
contains the ticker entry; each requested field selects at most one result
field, namely the first of the fourteen result fields whose name contains
the requested name case-insensitively, and requested names matching nothing
are dropped silently. -/
theorem stock_info_field_filtering :
    ∀ (ticker : String) (fs : List String) (info : JMembers) (response_format : String),
      fs ≠ [] →
      yfinance_get_stock_info ticker (some fs) response_format (.ok info)
          = format_response (stockInfoFiltered ticker (stockInfoResult ticker info) fs)
              response_format
        ∧ memberLookup (stockInfoFiltered ticker (stockInfoResult ticker info) fs) "ticker"
            = some (.str ticker)
        ∧ (∀ key, key ∈ keysOf (stockInfoFiltered ticker (stockInfoResult ticker info) fs) ↔
             key = "ticker"
             ∨ ∃ f ∈ fs, stockInfoFieldNames.find? (fun af => fieldMatches f af) = some key)
        ∧ (keysOf (stockInfoFiltered ticker (stockInfoResult ticker info) fs)).Nodup
        ∧ (keysOf (stockInfoFiltered ticker (stockInfoResult ticker info) fs)).length
            ≤ 1 + fs.length := by
  intro ticker fs info response_format hne
  have hpos : 0 < fs.length := by
    cases fs with
    | nil => exact absurd rfl hne
    | cons a l => simp
  refine ⟨?_, ?_, ?_, ?_, ?_⟩
  · show format_response
        (if 0 < fs.length then stockInfoFiltered ticker (stockInfoResult ticker info) fs
         else stockInfoResult ticker info) response_format = _
    rw [if_pos hpos]
  · unfold stockInfoFiltered
    exact foldl_lookup_ticker (stockInfoResult ticker info)
      (keysOf (stockInfoResult ticker info)) ticker rfl fs
      (.cons "ticker" (.str ticker) .nil) rfl
  · intro key
    unfold stockInfoFiltered
    rw [keysOf_stockInfoResult, foldl_keys_mem]
    simp [keysOf]
  · unfold stockInfoFiltered
    exact foldl_keys_nodup _ _ fs _ (by simp [keysOf])
  · unfold stockInfoFiltered
    have h1 := foldl_keys_length (stockInfoResult ticker info)
      (keysOf (stockInfoResult ticker info)) fs (.cons "ticker" (.str ticker) .nil)
    have hseed : (keysOf (JMembers.cons "ticker" (.str ticker) .nil)).length = 1 := rfl
    omega

theorem stock_info_field_filtering_witness :
    yfinance_get_stock_info "AAPL" (some ["price", "zzz"]) "markdown" (.ok .nil)
      = format_response
          (stockInfoFiltered "AAPL" (stockInfoResult "AAPL" .nil) ["price", "zzz"])
          "markdown" :=
  (stock_info_field_filtering "AAPL" ["price", "zzz"] .nil "markdown" (by simp)).1

/-- Claim C3 counterexample: the no-matching-fields failure of
yfinance_get_stock_financials is converted into a Response Document with TWO
keys, error and available_fields, not a document containing only an error
key as the claim states. -/
theorem financials_error_extra_key :
    yfinance_get_stock_financials "AAPL" "income" "quarterly" 4 (some ["zzz"]) "json"
        (.ok ⟨["2024-06-30"], [("Total Revenue", [Cell.num "5.0"])]⟩)
      = format_response (finNoMatchDoc "Income Statement" ["Total Revenue"]) "json"
    ∧ keysOf (finNoMatchDoc "Income Statement" ["Total Revenue"])
        = ["error", "available_fields"]
    ∧ ("available_fields" : String) ≠ "error" :=
  ⟨rfl, rfl, by decide⟩

/-- Claim C3 amended: every failure at the three modeled tool boundaries
(provider exception, empty or missing data, invalid parameter value) is
caught and converted into a formatted Response Document whose first key is
"error" with a descriptive message; on the financials no-matching-fields
path and the earnings empty-after-filter path an auxiliary second key
(available_fields, note) accompanies it.  Every branch returns through
format_response, so the caller always receives a string, never an
exception. -/
theorem tool_error_conversion :
    (∀ (ticker : String) (fields : Option (List String)) (response_format e : String),
        yfinance_get_stock_info ticker fields response_format (.error e)
          = format_response
              (ofListM [("error", .str ("Failed to fetch stock info for " ++ ticker ++ ": "
                ++ e ++ ". Verify the ticker symbol is correct."))]) response_format)
    ∧ (∀ (ticker statement_type period : String) (limit : Int)
          (fields : Option (List String)) (response_format : String)
          (fetch : Except String FinFrame),
        statementNameOf statement_type = none →
        yfinance_get_stock_financials ticker statement_type period limit fields
            response_format fetch
          = format_response
              (ofListM [("error", .str ("Invalid statement_type: " ++ statement_type
                ++ ". Use 'income', 'balance', or 'cashflow'"))]) response_format)
    ∧ (∀ (ticker statement_type period : String) (limit : Int)
          (fields : Option (List String)) (response_format e nm : String),
        statementNameOf statement_type = some nm →
        yfinance_get_stock_financials ticker statement_type period limit fields
            response_format (.error e)
          = format_response
              (ofListM [("error", .str ("Failed to fetch financials for " ++ ticker
                ++ ": " ++ e))]) response_format)
    ∧ (∀ (ticker statement_type period : String) (limit : Int)
          (fields : Option (List String)) (response_format nm : String)
          (frame : FinFrame),
        statementNameOf statement_type = some nm → finFrameEmpty frame = true →
        yfinance_get_stock_financials ticker statement_type period limit fields
            response_format (.ok frame)
          = format_response
              (ofListM [("error", .str ("No " ++ strLower nm ++ " data found for "
                ++ ticker))]) response_format)
    ∧ (∀ (ticker statement_type period : String) (limit : Int) (fs : List String)
          (response_format nm : String) (frame : FinFrame),
        statementNameOf statement_type = some nm → finFrameEmpty frame = false →
        0 < fs.length →
        matchedFieldNames fs ((finSlice frame limit).rows.map Prod.fst) = [] →
        yfinance_get_stock_financials ticker statement_type period limit (some fs)
            response_format (.ok frame)
          = format_response
              (finNoMatchDoc nm ((finSlice frame limit).rows.map Prod.fst))
              response_format
          ∧ (keysOf (finNoMatchDoc nm ((finSlice frame limit).rows.map Prod.fst))).head?
              = some "error")
    ∧ (∀ (ticker : String) (limit : Int) (future_only : Bool)
          (response_format : String) (now : Int) (e : String),
        yfinance_get_earnings_dates ticker limit future_only response_format now
            (.error e)
          = format_response
              (ofListM [("error", .str ("Failed to fetch earnings dates for " ++ ticker
                ++ ": " ++ e))]) response_format)
    ∧ (∀ (ticker : String) (limit : Int) (future_only : Bool)
          (response_format : String) (now : Int),
        yfinance_get_earnings_dates ticker limit future_only response_format now (.ok [])
          = format_response
              (ofListM [("error", .str ("No earnings dates found for " ++ ticker))])
              response_format)
    ∧ (∀ (ticker : String) (limit : Int) (response_format : String) (now : Int)
          (rows0 : List EarnRow),
        rows0.isEmpty = false →
        (rows0.filter (fun r => now < r.t)).isEmpty = true →
        yfinance_get_earnings_dates ticker limit true response_format now (.ok rows0)
          = format_response (earnEmptyDoc ticker true) response_format
          ∧ (keysOf (earnEmptyDoc ticker true)).head? = some "error") := by
  refine ⟨fun _ _ _ _ => rfl, ?_, ?_, ?_, ?_, fun _ _ _ _ _ _ => rfl, fun _ _ _ _ _ => rfl, ?_⟩
  · intro ticker statement_type period limit fields response_format fetch h
    unfold yfinance_get_stock_financials
    rw [h]
  · intro ticker statement_type period limit fields response_format e nm h
    unfold yfinance_get_stock_financials
    rw [h]
  · intro ticker statement_type period limit fields response_format nm frame h hempty
    unfold yfinance_get_stock_financials
    rw [h]
    simp only [hempty, if_true]
  · intro ticker statement_type period limit fs response_format nm frame h hempty hfs hmatch
    refine ⟨?_, rfl⟩
    unfold yfinance_get_stock_financials
    rw [h]
    simp only [hempty, Bool.false_eq_true, if_false, if_pos hfs, hmatch, List.isEmpty_nil,
      if_true]
  · intro ticker limit response_format now rows0 hne hfilter
    refine ⟨?_, rfl⟩
    unfold yfinance_get_earnings_dates
    simp only [hne, Bool.false_eq_true, if_false, if_true, hfilter]

theorem tool_error_conversion_witness :
    yfinance_get_stock_info "AAPL" none "json" (.error "boom")
        = format_response
            (ofListM [("error", .str ("Failed to fetch stock info for " ++ "AAPL" ++ ": "
              ++ "boom" ++ ". Verify the ticker symbol is correct."))]) "json"
    ∧ yfinance_get_earnings_dates "AAPL" 12 true "json" 5
          (.ok [⟨0, "2024-01-01", none, none, none⟩])
        = format_response (earnEmptyDoc "AAPL" true) "json" :=
  ⟨tool_error_conversion.1 "AAPL" none "json" "boom",
   (tool_error_conversion.2.2.2.2.2.2.2 "AAPL" 12 "json" 5
     [⟨0, "2024-01-01", none, none, none⟩] rfl rfl).1⟩

theorem sizeV_pos : ∀ v : JValue, 1 ≤ sizeV v := by
  intro v
  cases v <;> simp [sizeV]

theorem sizeM_pos : ∀ m : JMembers, 1 ≤ sizeM m := by
  intro m
  cases m <;> simp [sizeM] <;> omega

theorem sizeE_pos : ∀ e : JElems, 1 ≤ sizeE e := by
  intro e
  cases e <;> simp [sizeE] <;> omega

set_option maxHeartbeats 1000000 in
theorem hexVal_hexDigitChar (n : Nat) (h : n < 16) : hexVal (hexDigitChar n) = some n := by
  interval_cases n <;> decide

theorem hex4Val_hex4 (a : Nat) (h : a < 65536) :
    hex4Val (hexDigitChar (a / 4096 % 16)) (hexDigitChar (a / 256 % 16))
      (hexDigitChar (a / 16 % 16)) (hexDigitChar (a % 16)) = some a := by
  have h1 := hexVal_hexDigitChar (a / 4096 % 16) (Nat.mod_lt _ (by norm_num))
  have h2 := hexVal_hexDigitChar (a / 256 % 16) (Nat.mod_lt _ (by norm_num))
  have h3 := hexVal_hexDigitChar (a / 16 % 16) (Nat.mod_lt _ (by norm_num))
  have h4 := hexVal_hexDigitChar (a % 16) (Nat.mod_lt _ (by norm_num))
  simp only [hex4Val, h1, h2, h3, h4, Option.some.injEq]
  omega

theorem char_valid_range (c : Char) :
    c.toNat < 55296 ∨ (57344 ≤ c.toNat ∧ c.toNat < 1114112) := by
  have h := c.valid
  unfold UInt32.isValidChar Nat.isValidChar at h
  unfold Char.toNat
  rcases h with h | ⟨h1, h2⟩
  · exact Or.inl h
  · exact Or.inr ⟨by omega, h2⟩

theorem parseStrLF_quote (fuel : Nat) (t : List Char) :
    parseStrLF (fuel + 1) ('"' :: t) = some ([], t) := rfl

theorem parseStrLF_backslash (fuel : Nat) (t : List Char) :
    parseStrLF (fuel + 1) ('\\' :: t)
      = match decodeEsc t with
        | none => none
        | some (ch, r) => (parseStrLF fuel r).map (fun p => (ch :: p.1, p.2)) := rfl

theorem parseStrLF_other (fuel : Nat) (c : Char) (t : List Char)
    (h1 : ¬c = '"') (h2 : ¬c = '\\') :
    parseStrLF (fuel + 1) (c :: t) = (parseStrLF fuel t).map (fun p => (c :: p.1, p.2)) := by
  simp only [parseStrLF]
  rw [if_neg h1, if_neg h2]

theorem decodeUEsc_bmp (a b c d : Char) (n : Nat) (X : List Char)
    (ha : hex4Val a b c d = some n)
    (hlo : ¬(55296 ≤ n ∧ n < 56320)) (hhi : ¬(56320 ≤ n ∧ n < 57344)) :
    decodeUEsc (a :: b :: c :: d :: X) = some (Char.ofNat n, X) := by
  simp only [decodeUEsc, ha]
  rw [if_neg hlo, if_neg hhi]

theorem decodeUEsc_surrogate (a b c d a2 b2 c2 d2 : Char) (n m : Nat) (X : List Char)
    (ha : hex4Val a b c d = some n) (hb : hex4Val a2 b2 c2 d2 = some m)
    (h1 : 55296 ≤ n) (h2 : n < 56320) (h3 : 56320 ≤ m) (h4 : m < 57344) :
    decodeUEsc (a :: b :: c :: d :: ('\\' :: 'u' :: a2 :: b2 :: c2 :: d2 :: X))
      = some (Char.ofNat (65536 + 1024 * (n - 55296) + (m - 56320)), X) := by
  simp only [decodeUEsc, ha, hb]
  rw [if_pos ⟨h1, h2⟩, if_pos ⟨h3, h4⟩]

theorem parseStrLF_escape : ∀ (l : List Char) (fuel : Nat) (rest : List Char),
    l.length < fuel →
    parseStrLF fuel (flatMapL escChar l ++ '"' :: rest) = some (l, rest)
  | [], fuel + 1, rest, _ => by
    simp only [flatMapL, List.nil_append]
    exact parseStrLF_quote fuel rest
  | c :: l, fuel + 1, rest, h => by
    have hrec := parseStrLF_escape l fuel rest (by
      simp only [List.length_cons] at h
      omega)
    have hassoc : flatMapL escChar (c :: l) ++ '"' :: rest
        = escChar c ++ (flatMapL escChar l ++ '"' :: rest) := by
      simp [flatMapL, List.append_assoc]
    rw [hassoc]
    by_cases h1 : c = '"'
    · subst h1
      rw [show escChar '"' = ['\\', '"'] from by decide, List.cons_append,
        List.cons_append, List.nil_append, parseStrLF_backslash]
      simp only [show ∀ Y : List Char, decodeEsc ('"' :: Y) = some ('"', Y)
        from fun _ => rfl]
      rw [hrec]
      rfl
    · by_cases h2 : c = '\\'
      · subst h2
        rw [show escChar '\\' = ['\\', '\\'] from by decide, List.cons_append,
          List.cons_append, List.nil_append, parseStrLF_backslash]
        simp only [show ∀ Y : List Char, decodeEsc ('\\' :: Y) = some ('\\', Y)
          from fun _ => rfl]
        rw [hrec]
        rfl
      · by_cases h3 : c = '\n'
        · subst h3
          rw [show escChar '\n' = ['\\', 'n'] from by decide, List.cons_append,
            List.cons_append, List.nil_append, parseStrLF_backslash]
          simp only [show ∀ Y : List Char, decodeEsc ('n' :: Y) = some ('\n', Y)
            from fun _ => rfl]
          rw [hrec]
          rfl
        · by_cases h4 : c = '\t'
          · subst h4
            rw [show escChar '\t' = ['\\', 't'] from by decide, List.cons_append,
              List.cons_append, List.nil_append, parseStrLF_backslash]
            simp only [show ∀ Y : List Char, decodeEsc ('t' :: Y) = some ('\t', Y)
              from fun _ => rfl]
            rw [hrec]
            rfl
          · by_cases h5 : c = '\r'
            · subst h5
              rw [show escChar '\r' = ['\\', 'r'] from by decide, List.cons_append,
                List.cons_append, List.nil_append, parseStrLF_backslash]
              simp only [show ∀ Y : List Char, decodeEsc ('r' :: Y) = some ('\r', Y)
                from fun _ => rfl]
              rw [hrec]
              rfl
            · by_cases h6 : c.toNat = 8
              · have hc : c = Char.ofNat 8 := by
                  rw [← h6, Char.ofNat_toNat]
                rw [show escChar c = ['\\', 'b'] from by
                  simp only [escChar, if_neg h1, if_neg h2, if_neg h3, if_neg h4,
                    if_neg h5, if_pos h6]]
                rw [List.cons_append, List.cons_append, List.nil_append,
                  parseStrLF_backslash]
                simp only [show ∀ Y : List Char,
                  decodeEsc ('b' :: Y) = some (Char.ofNat 8, Y) from fun _ => rfl]
                rw [hrec, ← hc]
                rfl
              · by_cases h7 : c.toNat = 12
                · have hc : c = Char.ofNat 12 := by
                    rw [← h7, Char.ofNat_toNat]
                  rw [show escChar c = ['\\', 'f'] from by
                    simp only [escChar, if_neg h1, if_neg h2, if_neg h3, if_neg h4,
                      if_neg h5, if_neg h6, if_pos h7]]
                  rw [List.cons_append, List.cons_append, List.nil_append,
                    parseStrLF_backslash]
                  simp only [show ∀ Y : List Char,
                    decodeEsc ('f' :: Y) = some (Char.ofNat 12, Y) from fun _ => rfl]
                  rw [hrec, ← hc]
                  rfl
                · by_cases h8 : 32 ≤ c.toNat ∧ c.toNat ≤ 126
                  · rw [show escChar c = [c] from by
                      simp only [escChar, if_neg h1, if_neg h2, if_neg h3, if_neg h4,
                        if_neg h5, if_neg h6, if_neg h7, if_pos h8]]
                    rw [List.cons_append, List.nil_append,
                      parseStrLF_other fuel c _ h1 h2, hrec]
                    rfl
                  · by_cases h9 : c.toNat < 65536
                    · have hlo : ¬(55296 ≤ c.toNat ∧ c.toNat < 56320) := by
                        rcases char_valid_range c with hr | hr <;> omega
                      have hhi : ¬(56320 ≤ c.toNat ∧ c.toNat < 57344) := by
                        rcases char_valid_range c with hr | hr <;> omega
                      rw [show escChar c = '\\' :: 'u' :: hex4 c.toNat from by
                        simp only [escChar, if_neg h1, if_neg h2, if_neg h3, if_neg h4,
                          if_neg h5, if_neg h6, if_neg h7, if_neg h8, if_pos h9]]
                      simp only [hex4, List.cons_append, List.nil_append]
                      rw [parseStrLF_backslash]
                      have hb := decodeUEsc_bmp
                        (hexDigitChar (c.toNat / 4096 % 16))
                        (hexDigitChar (c.toNat / 256 % 16))
                        (hexDigitChar (c.toNat / 16 % 16))
                        (hexDigitChar (c.toNat % 16)) c.toNat
                        (flatMapL escChar l ++ '"' :: rest)
                        (hex4Val_hex4 c.toNat h9) hlo hhi
                      simp only [show ∀ Y : List Char, decodeEsc ('u' :: Y) = decodeUEsc Y
                        from fun _ => rfl, hb]
                      rw [hrec, Char.ofNat_toNat]
                      rfl
                    · have h10 : 65536 ≤ c.toNat := by omega
                      have h11 : c.toNat < 1114112 := by
                        rcases char_valid_range c with hr | hr <;> omega
                      rw [show escChar c
                          = '\\' :: 'u' :: hex4 (55296 + (c.toNat - 65536) / 1024)
                            ++ '\\' :: 'u' :: hex4 (56320 + (c.toNat - 65536) % 1024)
                        from by
                          simp only [escChar, if_neg h1, if_neg h2, if_neg h3, if_neg h4,
                            if_neg h5, if_neg h6, if_neg h7, if_neg h8, if_neg h9]]
                      simp only [hex4, List.cons_append, List.nil_append,
                        List.append_assoc]
                      rw [parseStrLF_backslash]
                      have hs := decodeUEsc_surrogate
                        (hexDigitChar ((55296 + (c.toNat - 65536) / 1024) / 4096 % 16))
                        (hexDigitChar ((55296 + (c.toNat - 65536) / 1024) / 256 % 16))
                        (hexDigitChar ((55296 + (c.toNat - 65536) / 1024) / 16 % 16))
                        (hexDigitChar ((55296 + (c.toNat - 65536) / 1024) % 16))
                        (hexDigitChar ((56320 + (c.toNat - 65536) % 1024) / 4096 % 16))
                        (hexDigitChar ((56320 + (c.toNat - 65536) % 1024) / 256 % 16))
                        (hexDigitChar ((56320 + (c.toNat - 65536) % 1024) / 16 % 16))
                        (hexDigitChar ((56320 + (c.toNat - 65536) % 1024) % 16))
                        (55296 + (c.toNat - 65536) / 1024)
                        (56320 + (c.toNat - 65536) % 1024)
                        (flatMapL escChar l ++ '"' :: rest)
                        (hex4Val_hex4 _ (by omega)) (hex4Val_hex4 _ (by omega))
                        (by omega) (by omega) (by omega) (by omega)
                      simp only [show ∀ Y : List Char, decodeEsc ('u' :: Y) = decodeUEsc Y
                        from fun _ => rfl, hs]
                      rw [show 65536 + 1024 * (55296 + (c.toNat - 65536) / 1024 - 55296)
                          + (56320 + (c.toNat - 65536) % 1024 - 56320) = c.toNat
                        from by omega]
                      rw [hrec, Char.ofNat_toNat]
                      rfl

theorem escChar_length_pos (c : Char) : 1 ≤ (escChar c).length := by
  unfold escChar
  split_ifs <;> simp [hex4]

theorem flatMapL_escChar_length : ∀ l : List Char, l.length ≤ (flatMapL escChar l).length
  | [] => by simp [flatMapL]
  | c :: l => by
    simp only [flatMapL, List.length_append, List.length_cons]
    have h1 := escChar_length_pos c
    have h2 := flatMapL_escChar_length l
    omega

theorem parseStrL_escape (l rest : List Char) :
    parseStrL (flatMapL escChar l ++ '"' :: rest) = some (l, rest) := by
  unfold parseStrL
  apply parseStrLF_escape
  have := flatMapL_escChar_length l
  simp only [List.length_append, List.length_cons]
  omega

theorem skipWs_not_ws (c : Char) (l : List Char) (h : isWsChar c = false) :
    skipWs (c :: l) = c :: l := by
  simp [skipWs, h]

theorem skipWs_ws_prefix : ∀ (pre l : List Char), wsOnly pre = true →
    skipWs (pre ++ l) = skipWs l
  | [], l, _ => rfl
  | c :: pre, l, h => by
    obtain ⟨hc, hpre⟩ : isWsChar c = true ∧ wsOnly pre = true := by
      simpa [wsOnly, Bool.and_eq_true] using h
    simp only [List.cons_append, skipWs, hc, if_true]
    exact skipWs_ws_prefix pre l hpre

theorem wsOnly_indL (n : Nat) : wsOnly (indL n) = true := by
  simp only [wsOnly, indL, List.all_eq_true]
  intro c hc
  rw [List.eq_of_mem_replicate hc]
  decide

theorem skipWs_newline_indL (n : Nat) (l : List Char) :
    skipWs ('\n' :: (indL n ++ l)) = skipWs l := by
  have h1 : wsOnly ('\n' :: indL n) = true := by
    simp only [wsOnly, List.all_cons, Bool.and_eq_true]
    exact ⟨by decide, wsOnly_indL n⟩
  calc skipWs ('\n' :: (indL n ++ l)) = skipWs (('\n' :: indL n) ++ l) := by
        rw [List.cons_append]
    _ = skipWs l := skipWs_ws_prefix _ _ h1

theorem numChar_not_special (c : Char) (h : isNumChar c = true) :
    (¬c = '"') ∧ (¬c = '{') ∧ (¬c = '[') ∧ (¬c = 't') ∧ (¬c = 'f') ∧ (¬c = 'n')
      ∧ (¬c = ']') ∧ isWsChar c = false := by
  simp only [isNumChar, Bool.or_eq_true, decide_eq_true_eq] at h
  rcases h with ((((hd | rfl) | rfl) | rfl) | rfl) | rfl
  · have hws : isWsChar c = false := by
      cases hfin : isWsChar c
      · rfl
      · exfalso
        have hcase : ((c = ' ' ∨ c = '\n') ∨ c = '\t') ∨ c = '\r' := by
          simpa [isWsChar, Bool.or_eq_true, decide_eq_true_eq] using hfin
        rcases hcase with ((rfl | rfl) | rfl) | rfl <;>
          exact absurd hd (by decide)
    refine ⟨?_, ?_, ?_, ?_, ?_, ?_, ?_, hws⟩ <;>
      exact fun hc => by subst hc; exact absurd hd (by decide)
  · exact ⟨by decide, by decide, by decide, by decide, by decide, by decide, by decide,
      by decide⟩
  · exact ⟨by decide, by decide, by decide, by decide, by decide, by decide, by decide,
      by decide⟩
  · exact ⟨by decide, by decide, by decide, by decide, by decide, by decide, by decide,
      by decide⟩
  · exact ⟨by decide, by decide, by decide, by decide, by decide, by decide, by decide,
      by decide⟩
  · exact ⟨by decide, by decide, by decide, by decide, by decide, by decide, by decide,
      by decide⟩

theorem goodRest_not_num (r : List Char) (hr : goodRestB r = true) :
    r.takeWhile isNumChar = [] ∧ r.dropWhile isNumChar = r := by
  cases r with
  | nil => exact ⟨rfl, rfl⟩
  | cons c t =>
    have : c = ',' ∨ c = '\n' := by
      simpa [goodRestB, Bool.or_eq_true, decide_eq_true_eq] using hr
    rcases this with rfl | rfl <;>
      simp [List.takeWhile_cons, List.dropWhile_cons, isNumChar]

theorem num_run_split : ∀ (a r : List Char), a.all isNumChar = true → goodRestB r = true →
    (a ++ r).takeWhile isNumChar = a ∧ (a ++ r).dropWhile isNumChar = r
  | [], r, _, hr => by
    simpa using goodRest_not_num r hr
  | c :: a, r, ha, hr => by
    obtain ⟨hc, ha'⟩ : isNumChar c = true ∧ a.all isNumChar = true := by
      simpa [List.all_cons, Bool.and_eq_true] using ha
    have ih := num_run_split a r ha' hr
    simp [List.cons_append, List.takeWhile_cons, List.dropWhile_cons, hc, ih.1, ih.2]

theorem wsOnly_append (a b : List Char) (ha : wsOnly a = true) (hb : wsOnly b = true) :
    wsOnly (a ++ b) = true := by
  simp only [wsOnly, List.all_append, Bool.and_eq_true]
  exact ⟨ha, hb⟩

theorem goodRest_entries (m : JMembers) (lvl : Nat) (X : List Char) :
    goodRestB (dumpEntriesRest m lvl ++ '\n' :: X) = true := by
  cases m <;> simp [dumpEntriesRest, goodRestB, List.cons_append]

theorem goodRest_elems (e : JElems) (lvl : Nat) (X : List Char) :
    goodRestB (dumpElemsRest e lvl ++ '\n' :: X) = true := by
  cases e <;> simp [dumpElemsRest, goodRestB, List.cons_append]

theorem dumpVal_head (v : JValue) (n : Nat) (hwf : wfVal v = true) :
    ∃ c t, dumpVal v n = c :: t ∧ isWsChar c = false ∧ ¬c = ']' := by
  cases v with
  | str s => exact ⟨'"', _, rfl, by decide, by decide⟩
  | jnum lit =>
    obtain ⟨hne, hall⟩ : (toL lit).isEmpty = false ∧ (toL lit).all isNumChar = true := by
      simpa [wfVal, numLitOk, Bool.and_eq_true] using hwf
    cases hd : toL lit with
    | nil =>
      rw [hd] at hne
      simp at hne
    | cons c0 t0 =>
      rw [hd] at hall
      obtain ⟨hc0, _⟩ : isNumChar c0 = true ∧ t0.all isNumChar = true := by
        simpa [List.all_cons, Bool.and_eq_true] using hall
      have hp := numChar_not_special c0 hc0
      refine ⟨c0, t0, ?_, hp.2.2.2.2.2.2.2, hp.2.2.2.2.2.2.1⟩
      show toL lit = c0 :: t0
      exact hd
  | boolean b =>
    cases b
    · exact ⟨'f', _, rfl, by decide, by decide⟩
    · exact ⟨'t', _, rfl, by decide, by decide⟩
  | null => exact ⟨'n', _, rfl, by decide, by decide⟩
  | other s => exact ⟨'"', _, rfl, by decide, by decide⟩
  | obj items => exact ⟨'{', _, rfl, by decide, by decide⟩
  | arr elems => exact ⟨'[', _, rfl, by decide, by decide⟩

theorem parse_dump_all : ∀ fuel : Nat, Pstmt fuel ∧ Qstmt fuel ∧ Rstmt fuel := by
  intro fuel
  induction fuel with
  | zero =>
    refine ⟨?_, ?_, ?_⟩
    · intro v n pre rest _ _ _ hs
      exact absurd hs (by have := sizeV_pos v; omega)
    · intro m n pre rest _ _ _ hs
      exact absurd hs (by have := sizeM_pos m; omega)
    · intro e n pre rest _ _ _ hs
      exact absurd hs (by have := sizeE_pos e; omega)
  | succ fuel ih =>
    obtain ⟨ihP, ihQ, ihR⟩ := ih
    refine ⟨?_, ?_, ?_⟩
    · intro v n pre rest hwf hpre hrest hsize
      cases v with
      | str s =>
        have hshape : pre ++ dumpVal (.str s) n ++ rest
            = pre ++ ('"' :: (flatMapL escChar (toL s) ++ '"' :: rest)) := by
          show pre ++ (('"' :: flatMapL escChar (toL s)) ++ ['"']) ++ rest = _
          simp [List.append_assoc, List.cons_append]
        have hskip : skipWs (pre ++ ('"' :: (flatMapL escChar (toL s) ++ '"' :: rest)))
            = '"' :: (flatMapL escChar (toL s) ++ '"' :: rest) := by
          rw [ skipWs_ws_prefix pre _ hpre, skipWs_not_ws _ _ (by decide)]
        rw [hshape]
        simp only [parseVal, hskip, parseStrL_escape, coerceVal]
        rfl
      | other s =>
        have hshape : pre ++ dumpVal (.other s) n ++ rest
            = pre ++ ('"' :: (flatMapL escChar (toL s) ++ '"' :: rest)) := by
          show pre ++ (('"' :: flatMapL escChar (toL s)) ++ ['"']) ++ rest = _
          simp [List.append_assoc, List.cons_append]
        have hskip : skipWs (pre ++ ('"' :: (flatMapL escChar (toL s) ++ '"' :: rest)))
            = '"' :: (flatMapL escChar (toL s) ++ '"' :: rest) := by
          rw [ skipWs_ws_prefix pre _ hpre, skipWs_not_ws _ _ (by decide)]
        rw [hshape]
        simp only [parseVal, hskip, parseStrL_escape, coerceVal]
        rfl
      | jnum lit =>
        obtain ⟨hne, hall⟩ : (toL lit).isEmpty = false ∧ (toL lit).all isNumChar = true := by
          simpa [wfVal, numLitOk, Bool.and_eq_true] using hwf
        cases hd : toL lit with
        | nil =>
          rw [hd] at hne
          simp at hne
        | cons c0 t0 =>
          rw [hd] at hall
          obtain ⟨hc0, ht0⟩ : isNumChar c0 = true ∧ t0.all isNumChar = true := by
            simpa [List.all_cons, Bool.and_eq_true] using hall
          have hp := numChar_not_special c0 hc0
          have hshape : pre ++ dumpVal (.jnum lit) n ++ rest
              = pre ++ (c0 :: (t0 ++ rest)) := by
            show pre ++ toL lit ++ rest = _
            rw [hd]
            simp [List.append_assoc, List.cons_append]
          have hskip : skipWs (pre ++ (c0 :: (t0 ++ rest))) = c0 :: (t0 ++ rest) := by
            rw [ skipWs_ws_prefix pre _ hpre, skipWs_not_ws _ _ hp.2.2.2.2.2.2.2]
          have hrun := num_run_split t0 rest ht0 hrest
          rw [hshape]
          simp only [parseVal, hskip]
          rw [if_neg hp.1, if_neg hp.2.1, if_neg hp.2.2.1, if_neg hp.2.2.2.1,
            if_neg hp.2.2.2.2.1, if_neg hp.2.2.2.2.2.1, if_pos hc0, hrun.1, hrun.2]
          rw [show String.mk (c0 :: t0) = lit from by rw [← hd]; rfl]
          rfl
      | boolean b =>
        cases b
        · have hshape : pre ++ dumpVal (.boolean false) n ++ rest
              = pre ++ ('f' :: 'a' :: 'l' :: 's' :: 'e' :: rest) := by
            show pre ++ toL "false" ++ rest = _
            rw [show toL "false" = ['f', 'a', 'l', 's', 'e'] from by decide]
            simp [List.append_assoc, List.cons_append]
          have hskip : skipWs (pre ++ ('f' :: 'a' :: 'l' :: 's' :: 'e' :: rest))
              = 'f' :: 'a' :: 'l' :: 's' :: 'e' :: rest := by
            rw [ skipWs_ws_prefix pre _ hpre, skipWs_not_ws _ _ (by decide)]
          rw [hshape]
          simp only [parseVal, hskip]
          rw [if_neg (by decide : ¬ 'f' = '"'), if_neg (by decide : ¬ 'f' = '{'),
            if_neg (by decide : ¬ 'f' = '['), if_neg (by decide : ¬ 'f' = 't'),
            if_pos trivial]
          rfl
        · have hshape : pre ++ dumpVal (.boolean true) n ++ rest
              = pre ++ ('t' :: 'r' :: 'u' :: 'e' :: rest) := by
            show pre ++ toL "true" ++ rest = _
            rw [show toL "true" = ['t', 'r', 'u', 'e'] from by decide]
            simp [List.append_assoc, List.cons_append]
          have hskip : skipWs (pre ++ ('t' :: 'r' :: 'u' :: 'e' :: rest))
              = 't' :: 'r' :: 'u' :: 'e' :: rest := by
            rw [ skipWs_ws_prefix pre _ hpre, skipWs_not_ws _ _ (by decide)]
          rw [hshape]
          simp only [parseVal, hskip]
          rw [if_neg (by decide : ¬ 't' = '"'), if_neg (by decide : ¬ 't' = '{'),
            if_neg (by decide : ¬ 't' = '['), if_pos trivial]
          rfl
      | null =>
        have hshape : pre ++ dumpVal .null n ++ rest
            = pre ++ ('n' :: 'u' :: 'l' :: 'l' :: rest) := by
          show pre ++ toL "null" ++ rest = _
          rw [show toL "null" = ['n', 'u', 'l', 'l'] from by decide]
          simp [List.append_assoc, List.cons_append]
        have hskip : skipWs (pre ++ ('n' :: 'u' :: 'l' :: 'l' :: rest))
            = 'n' :: 'u' :: 'l' :: 'l' :: rest := by
          rw [ skipWs_ws_prefix pre _ hpre, skipWs_not_ws _ _ (by decide)]
        rw [hshape]
        simp only [parseVal, hskip]
        rw [if_neg (by decide : ¬ 'n' = '"'), if_neg (by decide : ¬ 'n' = '{'),
          if_neg (by decide : ¬ 'n' = '['), if_neg (by decide : ¬ 'n' = 't'),
          if_neg (by decide : ¬ 'n' = 'f'), if_pos trivial]
        rfl
      | obj items =>
        have hshape : pre ++ dumpVal (.obj items) n ++ rest
            = pre ++ ('{' :: (innerObj items n ++ rest)) := by
          show pre ++ ('{' :: innerObj items n) ++ rest = _
          simp [List.append_assoc, List.cons_append]
        have hskip : skipWs (pre ++ ('{' :: (innerObj items n ++ rest)))
            = '{' :: (innerObj items n ++ rest) := by
          rw [ skipWs_ws_prefix pre _ hpre, skipWs_not_ws _ _ (by decide)]
        have hq := ihQ items n [] rest (by simpa [wfVal] using hwf) rfl hrest
          (by simp only [sizeV] at hsize; omega)
        simp only [List.nil_append] at hq
        rw [hshape]
        simp only [parseVal, hskip]
        rw [if_neg (by decide : ¬ '{' = '"'), if_pos trivial, hq]
        rfl
      | arr elems =>
        have hshape : pre ++ dumpVal (.arr elems) n ++ rest
            = pre ++ ('[' :: (innerArr elems n ++ rest)) := by
          show pre ++ ('[' :: innerArr elems n) ++ rest = _
          simp [List.append_assoc, List.cons_append]
        have hskip : skipWs (pre ++ ('[' :: (innerArr elems n ++ rest)))
            = '[' :: (innerArr elems n ++ rest) := by
          rw [ skipWs_ws_prefix pre _ hpre, skipWs_not_ws _ _ (by decide)]
        have hr := ihR elems n [] rest (by simpa [wfVal] using hwf) rfl hrest
          (by simp only [sizeV] at hsize; omega)
        simp only [List.nil_append] at hr
        rw [hshape]
        simp only [parseVal, hskip]
        rw [if_neg (by decide : ¬ '[' = '"'), if_neg (by decide : ¬ '[' = '{'),
          if_pos trivial, hr]
        rfl
    · intro m n pre rest hwf hpre hrest hsize
      cases m with
      | nil =>
        have hshape : pre ++ innerObj .nil n ++ rest = pre ++ ('}' :: rest) := by
          show pre ++ ['}'] ++ rest = _
          simp [List.append_assoc, List.cons_append]
        have hskip : skipWs (pre ++ ('}' :: rest)) = '}' :: rest := by
          rw [ skipWs_ws_prefix pre _ hpre, skipWs_not_ws _ _ (by decide)]
        rw [hshape]
        simp only [parseMembers, hskip]
        rfl
      | cons k v m' =>
        obtain ⟨hwfv, hwfm⟩ : wfVal v = true ∧ wfMembers m' = true := by
          simpa [wfMembers, Bool.and_eq_true] using hwf
        have hshape : pre ++ innerObj (.cons k v m') n ++ rest
            = (pre ++ '\n' :: indL (n + 1))
              ++ ('"' :: (flatMapL escChar (toL k)
                ++ '"' :: (':' :: ' ' :: (dumpVal v (n + 1)
                  ++ (dumpEntriesRest m' (n + 1)
                    ++ '\n' :: (indL n ++ '}' :: rest)))))) := by
          show pre ++ (('\n' :: indL (n + 1)) ++ (('"' :: flatMapL escChar (toL k)) ++ ['"'])
            ++ (':' :: ' ' :: dumpVal v (n + 1))
            ++ dumpEntriesRest m' (n + 1) ++ ('\n' :: indL n) ++ ['}']) ++ rest = _
          simp [List.append_assoc, List.cons_append]
        have hws1 : wsOnly (pre ++ '\n' :: indL (n + 1)) = true := by
          apply wsOnly_append _ _ hpre
          simp only [wsOnly, List.all_cons, Bool.and_eq_true]
          exact ⟨by decide, wsOnly_indL (n + 1)⟩
        have hskip : skipWs ((pre ++ '\n' :: indL (n + 1))
            ++ ('"' :: (flatMapL escChar (toL k)
              ++ '"' :: (':' :: ' ' :: (dumpVal v (n + 1)
                ++ (dumpEntriesRest m' (n + 1)
                  ++ '\n' :: (indL n ++ '}' :: rest)))))))
            = '"' :: (flatMapL escChar (toL k)
              ++ '"' :: (':' :: ' ' :: (dumpVal v (n + 1)
                ++ (dumpEntriesRest m' (n + 1)
                  ++ '\n' :: (indL n ++ '}' :: rest))))) := by
          rw [ skipWs_ws_prefix _ _ hws1, skipWs_not_ws _ _ (by decide)]
        have hv := ihP v (n + 1) [' ']
          (dumpEntriesRest m' (n + 1) ++ '\n' :: (indL n ++ '}' :: rest)) hwfv
          (by decide) (goodRest_entries m' (n + 1) (indL n ++ '}' :: rest))
          (by have := sizeM_pos m'; simp only [sizeM] at hsize; omega)
        simp only [List.append_assoc, List.singleton_append, List.cons_append,
          List.nil_append] at hv
        have hcolon : skipWs (':' :: ' ' :: (dumpVal v (n + 1)
            ++ (dumpEntriesRest m' (n + 1) ++ '\n' :: (indL n ++ '}' :: rest))))
            = ':' :: ' ' :: (dumpVal v (n + 1)
            ++ (dumpEntriesRest m' (n + 1) ++ '\n' :: (indL n ++ '}' :: rest))) :=
          skipWs_not_ws _ _ (by decide)
        rw [hshape]
        simp only [parseMembers, hskip]
        rw [if_neg (by decide : ¬ '"' = '}'), if_pos trivial, parseStrL_escape]
        simp only [hcolon]
        rw [hv]
        cases m' with
        | nil =>
          have hskip2 : skipWs (dumpEntriesRest .nil (n + 1)
              ++ '\n' :: (indL n ++ '}' :: rest)) = '}' :: rest := by
            show skipWs ([] ++ '\n' :: (indL n ++ '}' :: rest)) = _
            rw [List.nil_append, skipWs_newline_indL, skipWs_not_ws _ _ (by decide)]
          simp only [hskip2]
          rw [show String.mk (toL k) = k from rfl]
          rfl
        | cons k2 v2 m'' =>
          have htail : dumpEntriesRest (.cons k2 v2 m'') (n + 1)
              ++ '\n' :: (indL n ++ '}' :: rest)
              = ',' :: ('\n' :: (indL (n + 1) ++ ('"' :: (flatMapL escChar (toL k2)
                ++ '"' :: (':' :: ' ' :: (dumpVal v2 (n + 1)
                  ++ (dumpEntriesRest m'' (n + 1)
                    ++ '\n' :: (indL n ++ '}' :: rest)))))))) := by
            simp [dumpEntriesRest, escStr, List.append_assoc, List.cons_append]
          have hr4 : innerObj (.cons k2 v2 m'') n ++ rest
              = '\n' :: (indL (n + 1) ++ ('"' :: (flatMapL escChar (toL k2)
                ++ '"' :: (':' :: ' ' :: (dumpVal v2 (n + 1)
                  ++ (dumpEntriesRest m'' (n + 1)
                    ++ '\n' :: (indL n ++ '}' :: rest))))))) := by
            simp [innerObj, escStr, List.append_assoc, List.cons_append]
          have hq := ihQ (.cons k2 v2 m'') n [] rest hwfm rfl hrest
            (by have := sizeV_pos v; simp only [sizeM] at hsize ⊢; omega)
          simp only [List.nil_append] at hq
          simp only [htail]
          rw [skipWs_not_ws _ _ (by decide : isWsChar ',' = false)]
          show (parseMembers fuel ('\n' :: (indL (n + 1) ++ ('"' :: (flatMapL escChar (toL k2)
              ++ '"' :: (':' :: ' ' :: (dumpVal v2 (n + 1)
                ++ (dumpEntriesRest m'' (n + 1)
                  ++ '\n' :: (indL n ++ '}' :: rest))))))))).map
              (fun p => (JMembers.cons (String.mk (toL k)) (coerceVal v) p.1, p.2))
            = some (coerceMembers (JMembers.cons k v (JMembers.cons k2 v2 m'')), rest)
          rw [← hr4, hq]
          rfl
    · intro e n pre rest hwf hpre hrest hsize
      cases e with
      | nil =>
        have hshape : pre ++ innerArr .nil n ++ rest = pre ++ (']' :: rest) := by
          show pre ++ [']'] ++ rest = _
          simp [List.append_assoc, List.cons_append]
        have hskip : skipWs (pre ++ (']' :: rest)) = ']' :: rest := by
          rw [ skipWs_ws_prefix pre _ hpre, skipWs_not_ws _ _ (by decide)]
        rw [hshape]
        simp only [parseElems, hskip]
        rfl
      | cons v e' =>
        obtain ⟨hwfv, hwfe⟩ : wfVal v = true ∧ wfElems e' = true := by
          simpa [wfElems, Bool.and_eq_true] using hwf
        obtain ⟨c0, t0, hd, hcws, hcne⟩ := dumpVal_head v (n + 1) hwfv
        have hshape : pre ++ innerArr (.cons v e') n ++ rest
            = (pre ++ '\n' :: indL (n + 1)) ++ (dumpVal v (n + 1)
              ++ (dumpElemsRest e' (n + 1) ++ '\n' :: (indL n ++ ']' :: rest))) := by
          show pre ++ (('\n' :: indL (n + 1)) ++ dumpVal v (n + 1)
            ++ dumpElemsRest e' (n + 1) ++ ('\n' :: indL n) ++ [']']) ++ rest = _
          simp [List.append_assoc, List.cons_append]
        have hws1 : wsOnly (pre ++ '\n' :: indL (n + 1)) = true := by
          apply wsOnly_append _ _ hpre
          simp only [wsOnly, List.all_cons, Bool.and_eq_true]
          exact ⟨by decide, wsOnly_indL (n + 1)⟩
        have hdx : dumpVal v (n + 1)
            ++ (dumpElemsRest e' (n + 1) ++ '\n' :: (indL n ++ ']' :: rest))
            = c0 :: (t0 ++ (dumpElemsRest e' (n + 1)
              ++ '\n' :: (indL n ++ ']' :: rest))) := by
          rw [hd]
          simp [List.cons_append]
        have hskip : skipWs ((pre ++ '\n' :: indL (n + 1)) ++ (dumpVal v (n + 1)
            ++ (dumpElemsRest e' (n + 1) ++ '\n' :: (indL n ++ ']' :: rest))))
            = c0 :: (t0 ++ (dumpElemsRest e' (n + 1)
              ++ '\n' :: (indL n ++ ']' :: rest))) := by
          rw [ skipWs_ws_prefix _ _ hws1, hdx, skipWs_not_ws _ _ hcws]
        have hv := ihP v (n + 1) []
          (dumpElemsRest e' (n + 1) ++ '\n' :: (indL n ++ ']' :: rest)) hwfv
          rfl (goodRest_elems e' (n + 1) (indL n ++ ']' :: rest))
          (by have := sizeE_pos e'; simp only [sizeE] at hsize; omega)
        simp only [List.nil_append] at hv
        rw [hshape]
        simp only [parseElems, hskip]
        rw [if_neg hcne, ← hdx, hv]
        cases e' with
        | nil =>
          have hskip2 : skipWs (dumpElemsRest .nil (n + 1)
              ++ '\n' :: (indL n ++ ']' :: rest)) = ']' :: rest := by
            show skipWs ([] ++ '\n' :: (indL n ++ ']' :: rest)) = _
            rw [List.nil_append, skipWs_newline_indL, skipWs_not_ws _ _ (by decide)]
          simp only [hskip2]
          rfl
        | cons v2 e'' =>
          have htail : dumpElemsRest (.cons v2 e'') (n + 1)
              ++ '\n' :: (indL n ++ ']' :: rest)
              = ',' :: ('\n' :: (indL (n + 1) ++ (dumpVal v2 (n + 1)
                ++ (dumpElemsRest e'' (n + 1)
                  ++ '\n' :: (indL n ++ ']' :: rest))))) := by
            simp [dumpElemsRest, List.append_assoc, List.cons_append]
          have hr4 : innerArr (.cons v2 e'') n ++ rest
              = '\n' :: (indL (n + 1) ++ (dumpVal v2 (n + 1)
                ++ (dumpElemsRest e'' (n + 1)
                  ++ '\n' :: (indL n ++ ']' :: rest)))) := by
            simp [innerArr, List.append_assoc, List.cons_append]
          have hq := ihR (.cons v2 e'') n [] rest hwfe rfl hrest
            (by have := sizeV_pos v; simp only [sizeE] at hsize ⊢; omega)
          simp only [List.nil_append] at hq
          simp only [htail]
          rw [skipWs_not_ws _ _ (by decide : isWsChar ',' = false)]
          show (parseElems fuel ('\n' :: (indL (n + 1) ++ (dumpVal v2 (n + 1)
              ++ (dumpElemsRest e'' (n + 1)
                ++ '\n' :: (indL n ++ ']' :: rest)))))).map
              (fun p => (JElems.cons (coerceVal v) p.1, p.2))
            = some (coerceElems (JElems.cons v (JElems.cons v2 e'')), rest)
          rw [← hr4, hq]
          rfl

mutual

theorem sizeV_le_dump (v : JValue) (n : Nat) (h : wfVal v = true) :
    sizeV v ≤ (dumpVal v n).length := by
  cases v with
  | str s =>
    show 1 ≤ (escStr s).length
    simp only [escStr, List.length_append, List.length_cons]
    omega
  | jnum lit =>
    simp only [wfVal, numLitOk, Bool.and_eq_true, Bool.not_eq_true'] at h
    cases hd : toL lit with
    | nil =>
      rw [hd] at h
      simp at h
    | cons c t =>
      show 1 ≤ (toL lit).length
      rw [hd]
      simp
  | boolean b =>
    cases b with
    | true => show 1 ≤ (toL "true").length; decide
    | false => show 1 ≤ (toL "false").length; decide
  | null =>
    show 1 ≤ (toL "null").length
    decide
  | other s =>
    show 1 ≤ (escStr s).length
    simp only [escStr, List.length_append, List.length_cons]
    omega
  | obj items =>
    have h2 := sizeM_le_inner items n (by simpa [wfVal] using h)
    show 1 + sizeM items ≤ (innerObj items n).length + 1
    omega
  | arr elems =>
    have h2 := sizeE_le_inner elems n (by simpa [wfVal] using h)
    show 1 + sizeE elems ≤ (innerArr elems n).length + 1
    omega

theorem sizeM_le_inner (m : JMembers) (n : Nat) (h : wfMembers m = true) :
    sizeM m ≤ (innerObj m n).length := by
  cases m with
  | nil => exact Nat.le_refl 1
  | cons k v rest =>
    obtain ⟨hv, hr⟩ : wfVal v = true ∧ wfMembers rest = true := by
      simpa [wfMembers, Bool.and_eq_true] using h
    have h1 := sizeV_le_dump v (n + 1) hv
    have h2 := sizeM_le_rest rest (n + 1) hr
    simp only [sizeM, innerObj, List.length_cons, List.length_append]
    omega

theorem sizeM_le_rest (m : JMembers) (n : Nat) (h : wfMembers m = true) :
    sizeM m ≤ (dumpEntriesRest m n).length + 1 := by
  cases m with
  | nil => exact Nat.le_refl 1
  | cons k v rest =>
    obtain ⟨hv, hr⟩ : wfVal v = true ∧ wfMembers rest = true := by
      simpa [wfMembers, Bool.and_eq_true] using h
    have h1 := sizeV_le_dump v n hv
    have h2 := sizeM_le_rest rest n hr
    simp only [sizeM, dumpEntriesRest, List.length_cons, List.length_append]
    omega

theorem sizeE_le_inner (e : JElems) (n : Nat) (h : wfElems e = true) :
    sizeE e ≤ (innerArr e n).length := by
  cases e with
  | nil => exact Nat.le_refl 1
  | cons v rest =>
    obtain ⟨hv, hr⟩ : wfVal v = true ∧ wfElems rest = true := by
      simpa [wfElems, Bool.and_eq_true] using h
    have h1 := sizeV_le_dump v (n + 1) hv
    have h2 := sizeE_le_rest rest (n + 1) hr
    simp only [sizeE, innerArr, List.length_cons, List.length_append]
    omega

theorem sizeE_le_rest (e : JElems) (n : Nat) (h : wfElems e = true) :
    sizeE e ≤ (dumpElemsRest e n).length + 1 := by
  cases e with
  | nil => exact Nat.le_refl 1
  | cons v rest =>
    obtain ⟨hv, hr⟩ : wfVal v = true ∧ wfElems rest = true := by
      simpa [wfElems, Bool.and_eq_true] using h
    have h1 := sizeV_le_dump v n hv
    have h2 := sizeE_le_rest rest n hr
    simp only [sizeE, dumpElemsRest, List.length_cons, List.length_append]
    omega

end

theorem keysOf_coerce : ∀ (m : JMembers), keysOf (coerceMembers m) = keysOf m
  | .nil => rfl
  | .cons k v rest => by
    show k :: keysOf (coerceMembers rest) = k :: keysOf rest
    rw [keysOf_coerce rest]

theorem lookup_mem_keys : ∀ (m : JMembers) (key : String) (v : JValue),
    memberLookup m key = some v → key ∈ keysOf m
  | .nil, key, v, h => by simp [memberLookup] at h
  | .cons k w rest, key, v, h => by
    by_cases hk : k = key
    · simp [keysOf, hk]
    · simp only [memberLookup, if_neg hk] at h
      simp only [keysOf, List.mem_cons]
      exact Or.inr (lookup_mem_keys rest key v h)

theorem parse_format_json (d : JMembers) (hwf : wfMembers d = true)
    (hlen : (renderResult d "json").length ≤ CHARACTER_LIMIT) :
    parseJson (format_response d "json") = some (.obj (coerceMembers d)) := by
  have hr : renderResult d "json" = jsonDump d := by
    rw [renderResult, if_pos rfl]
  rw [hr] at hlen
  have hfr : format_response d "json" = String.mk (jsonDump d) := by
    rw [format_response, hr, if_neg (by omega)]
  have hsz : sizeV (.obj d) ≤ (jsonDump d).length + 1 := by
    have h2 := sizeM_le_inner d 0 hwf
    show 1 + sizeM d ≤ (innerObj d 0).length + 1 + 1
    omega
  have hP := (parse_dump_all ((jsonDump d).length + 1)).1 (.obj d) 0 [] []
    (by simpa [wfVal] using hwf) rfl rfl hsz
  simp only [List.nil_append, List.append_nil] at hP
  rw [show dumpVal (JValue.obj d) 0 = jsonDump d from rfl] at hP
  rw [hfr]
  show (match parseVal ((jsonDump d).length + 1) (jsonDump d) with
    | some (v, rest) => if (skipWs rest).isEmpty then some v else none
    | none => none) = some (JValue.obj (coerceMembers d))
  rw [hP]
  rfl

/-- C4: a Response Document whose json rendering fits the truncation budget
round-trips: parsing the string format_response returns in json mode yields
the document itself up to the str() coercion of library objects, and the
empty document renders as exactly the two characters of an empty JSON
object. -/
theorem json_round_trip (d : JMembers) (hwf : wfMembers d = true)
    (hlen : (renderResult d "json").length ≤ CHARACTER_LIMIT) :
    parseJson (format_response d "json") = some (.obj (coerceMembers d))
    ∧ format_response .nil "json" = "{}" :=
  ⟨parse_format_json d hwf hlen, rfl⟩

theorem json_round_trip_witness :
    (wfMembers roundTripDoc = true
      ∧ (renderResult roundTripDoc "json").length ≤ CHARACTER_LIMIT)
    ∧ (parseJson (format_response roundTripDoc "json")
        = some (.obj (coerceMembers roundTripDoc))
      ∧ format_response .nil "json" = "{}") :=
  ⟨⟨by decide, by decide⟩, json_round_trip roundTripDoc (by decide) (by decide)⟩

/-- C8: the error key suppresses the other keys only in the markdown
renderer; in json mode a document holding an error key next to other keys
serializes as an ordinary JSON object that parses back with every key of the
document present, the error key among them. -/
theorem json_renders_all_keys (d : JMembers) (e : JValue)
    (hwf : wfMembers d = true)
    (herr : memberLookup d "error" = some e)
    (hlen : (renderResult d "json").length ≤ CHARACTER_LIMIT) :
    parseJson (format_response d "json") = some (.obj (coerceMembers d))
    ∧ keysOf (coerceMembers d) = keysOf d
    ∧ "error" ∈ keysOf (coerceMembers d) := by
  refine ⟨parse_format_json d hwf hlen, keysOf_coerce d, ?_⟩
  rw [keysOf_coerce d]
  exact lookup_mem_keys d "error" e herr

theorem json_renders_all_keys_witness :
    (wfMembers errorJsonDoc = true
      ∧ memberLookup errorJsonDoc "error" = some (.str "bad ticker")
      ∧ (renderResult errorJsonDoc "json").length ≤ CHARACTER_LIMIT)
    ∧ (parseJson (format_response errorJsonDoc "json")
        = some (.obj (coerceMembers errorJsonDoc))
      ∧ keysOf (coerceMembers errorJsonDoc) = keysOf errorJsonDoc
      ∧ "error" ∈ keysOf (coerceMembers errorJsonDoc)) :=
  ⟨⟨by decide, rfl, by decide⟩,
    json_renders_all_keys errorJsonDoc (.str "bad ticker")
      (by decide) rfl (by decide)⟩
